import Mathlib

/-!
Verification development for the baihu-panel execution and coordination
engine.  Go source files are shallowly embedded: pure computations become
Lean functions, stateful code becomes explicit state passing, Go machine
integers become `Nat`/`Int`, fallible code returns `Except`/`Option`.
The sections below follow the source files:
  * `internal/executor/scheduler.go` — worker-pool scheduler,
  * `internal/executor/executor.go` — local command executor,
  * `internal/services/tasks/executor_service.go` — task coordinator and
    remote dispatcher,
  * the streaming log collector `TinyLog` together with the base64 and
    zlib codecs its compressed output goes through.
-/

namespace Baihu

/-! ## Data model (scheduler.go lines 60-85) -/

/-- Embedding of `executor.ExecutionRequest` (scheduler.go): only the fields
the verified properties depend on are carried; `Timeout` is in minutes and,
as in Go, may be zero or negative. -/
structure ExecutionRequest where
  TaskID : String
  LogID : Nat
  Command : String
  Timeout : Int
  deriving DecidableEq, Repr

/-- Embedding of `executor.Result` (executor.go lines 42-50) restricted to
the fields the claims mention. -/
structure Result where
  Status : String
  Error : String
  ExitCode : Int
  deriving DecidableEq, Repr

/-! ## Go process-exit semantics (os/exec, used by executor.go lines 250-257)

`cmd.Wait` returns `nil` on exit code 0, an `*exec.ExitError` when the child
ran and terminated abnormally, and some other error otherwise.  Go's
`ProcessState.ExitCode()` returns the exit code for a normally exited child
and `-1` for a signal-terminated child; executor.go copies that value into
the result. -/

/-- Terminal state of a child process as exposed by Go's `os.ProcessState`:
either a normal exit with a code, or termination by a signal. -/
inductive ProcState where
  | exited (code : Nat)
  | signaled
  deriving DecidableEq, Repr

/-- Go `os.ProcessState.ExitCode`: the exit code on normal exit, `-1` when
the child was terminated by a signal. -/
def ProcState.goExitCode : ProcState → Int
  | .exited code => code
  | .signaled => -1

/-- Error value returned by `cmd.Wait` in executor.go: `exitError ps msg`
embeds `*exec.ExitError` (the child ran and exited abnormally, e.g. killed
by the context deadline's signal), `otherErr msg` any other error. -/
inductive WaitErr where
  | exitError (ps : ProcState) (msg : String)
  | otherErr (msg : String)
  deriving DecidableEq, Repr

/-- Message carried by a wait error, Go `err.Error()`. -/
def WaitErr.message : WaitErr → String
  | .exitError _ msg => msg
  | .otherErr msg => msg

/-- Result assembly after `cmd.Wait` in `ExecuteWithHooks`
(executor.go lines 244-261): `err == nil` gives status success and exit
code 0; an `*exec.ExitError` gives status failed with `ExitCode()` (hence
`-1` for a signal-terminated child); any other error gives status failed
with exit code 1. -/
def waitResult (err : Option WaitErr) : Result :=
  match err with
  | none => { Status := "success", Error := "", ExitCode := 0 }
  | some (.exitError ps msg) => { Status := "failed", Error := msg, ExitCode := ps.goExitCode }
  | some (.otherErr msg) => { Status := "failed", Error := msg, ExitCode := 1 }

/-- Effective executor-level timeout in minutes (executor.go lines 90-93):
`req.Timeout`, defaulting to 30 when it is not positive.  This deadline
lives on the executor's internal context `execCtx` only. -/
def effectiveTimeoutMinutes (reqTimeout : Int) : Int :=
  if reqTimeout ≤ 0 then 30 else reqTimeout

/-! ## Executor transport selection (executor.go lines 120-208) -/

/-- Identity of an `io.Writer` argument as far as the executor's comparisons
go: the Go `nil` interface, the `io.Discard` null sink, or some other
writer distinguished by an id (pointer identity). -/
inductive Writer where
  | nilW
  | discard
  | other (id : Nat)
  deriving DecidableEq, Repr

/-- Operating system as reported by Go's `runtime.GOOS`; only the
windows / non-windows distinction matters to the executor. -/
inductive GoOS where
  | windows
  | linux
  | darwin
  deriving DecidableEq, Repr

/-- The condition under which `ExecuteWithHooks` attempts PTY mode
(executor.go line 127):
`runtime.GOOS != "windows" && stdout != nil && (stdout == stderr || stdout == io.Discard)`. -/
def ptyAttempted (os : GoOS) (stdout stderr : Writer) : Bool :=
  os ≠ GoOS.windows ∧ stdout ≠ Writer.nilW ∧ (stdout = stderr ∨ stdout = Writer.discard)

/-- The PTY condition as the spec states it (spec §4.1 step 4): POSIX only,
stdout and stderr the same object, and neither of them the null sink.
This definition follows the claim's words and is compared against
`ptyAttempted`, which is taken from the source. -/
def ptyAttemptedSpec (os : GoOS) (stdout stderr : Writer) : Bool :=
  os ≠ GoOS.windows ∧ stdout = stderr ∧ stdout ≠ Writer.discard ∧ stderr ≠ Writer.discard

/-- Output transport actually used for the child process. -/
inductive ExecMode where
  | pty
  | pipeSingle
  | pipeDirect
  deriving DecidableEq, Repr

/-- Everything outside the executor's control that decides how one
execution of `ExecuteWithHooks` unfolds: the OS, the two writers, whether
`pty.Start` succeeds, whether `os.Pipe` and `cmd.Start` succeed, and the
error `cmd.Wait` eventually returns. -/
structure ExecScenario where
  os : GoOS
  stdout : Writer
  stderr : Writer
  ptyStartOk : Bool
  osPipeOk : Bool
  startOk : Bool
  waitErr : Option WaitErr
  deriving DecidableEq, Repr

/-- Outcome of `ExecuteWithHooks`: the transport chosen (`none` when the
child was never started), the returned result and the returned error. -/
structure ExecOutcome where
  mode : Option ExecMode
  result : Result
  errReturned : Option String
  deriving DecidableEq, Repr

/-- Embedding of `ExecuteWithHooks` (executor.go lines 70-272) at the level
of mode selection and result/error computation.  PTY mode is attempted
under `ptyAttempted`; if `pty.Start` fails the code only logs and falls
through to pipe mode (`started` stays false).  In pipe mode a single OS
pipe is used when `stdout == stderr`, direct attachment otherwise.  A
`cmd.Start` failure returns a failed result with exit code 1 together with
the error; afterwards status and exit code come from `cmd.Wait` via
`waitResult`. -/
def ExecuteWithHooks (sc : ExecScenario) : ExecOutcome :=
  if ptyAttempted sc.os sc.stdout sc.stderr ∧ sc.ptyStartOk then
    { mode := some ExecMode.pty
      result := waitResult sc.waitErr
      errReturned := (sc.waitErr).map WaitErr.message }
  else if ¬ sc.startOk then
    { mode := none
      result := { Status := "failed", Error := "", ExitCode := 1 }
      errReturned := some "start failed" }
  else
    let m := if sc.stdout ≠ Writer.nilW ∧ sc.stdout = sc.stderr ∧ sc.osPipeOk then
        ExecMode.pipeSingle
      else ExecMode.pipeDirect
    { mode := some m
      result := waitResult sc.waitErr
      errReturned := (sc.waitErr).map WaitErr.message }

/-! ## Scheduler context construction (scheduler.go lines 371-375)

`executeTask` builds `ctx, cancel := context.WithCancel(background)` and
only wraps it in `context.WithTimeout` when `req.Timeout > 0`.  Its
terminal error is observed through `ctx.Err()`. -/

/-- Terminal observation of the scheduler-level context: `ctx.Err()` is
`nil` while the context is live, `context.Canceled` after `cancel`, and
`context.DeadlineExceeded` after its deadline. -/
inductive CtxErr where
  | live
  | canceled
  | deadlineExceeded
  deriving DecidableEq, Repr

/-- Whether the scheduler-level context of `executeTask` carries a deadline
at all (scheduler.go lines 372-374): only when the request timeout is
positive. -/
def schedCtxHasDeadline (reqTimeout : Int) : Bool :=
  reqTimeout > 0

/-- Result finalization in `executeTask` (scheduler.go lines 390-420):
status and exit code are copied from the executor result when one exists
(zero values otherwise), and when the executor also returned an error the
status is overridden from the scheduler context: `cancelled` on
`context.Canceled`, `timeout` on `context.DeadlineExceeded`. -/
def schedulerFinalResult (execResult : Option Result) (execErrPresent : Bool)
    (ctxErr : CtxErr) : Result :=
  let base : Result :=
    match execResult with
    | some r => { Status := r.Status, Error := r.Error, ExitCode := r.ExitCode }
    | none => { Status := "failed", Error := "", ExitCode := 0 }
  if execErrPresent then
    match ctxErr with
    | .canceled => { base with Status := "cancelled" }
    | .deadlineExceeded => { base with Status := "timeout" }
    | .live => base
  else base

/-- Composition of the local execution path for one request: the executor
(`ExecuteWithHooks`) computes a result from the wait error, and
`executeTask` finalizes the status against its own context error.
`execErrPresent` holds exactly when `cmd.Wait` returned an error, which is
the error `ExecuteWithHooks` passes back up. -/
def localRunFinalResult (sc : ExecScenario) (ctxErr : CtxErr) : Result :=
  let out := ExecuteWithHooks sc
  schedulerFinalResult (some out.result) out.errReturned.isSome ctxErr

/-! ## executeTask handler callbacks (scheduler.go lines 298-441) -/

/-- The handler callbacks `executeTask` can fire, in order. -/
inductive HandlerEvent where
  | executing
  | started
  | completed
  | failed
  deriving DecidableEq, Repr

/-- What the injected executor call inside `executeTask` did: either it
returned (a possibly-nil result together with a possibly-nil error), or it
panicked.  A panic is caught by the deferred `recover` at the top of
`executeTask` (scheduler.go lines 299-303), which only logs it. -/
inductive ExecCall where
  | returned (res : Option Result) (err : Option String)
  | panicked
  deriving DecidableEq, Repr

/-- The sequence of handler callbacks fired by one `executeTask` run
(scheduler.go lines 317-431), as a function of whether `OnTaskExecuting`
returned an error and of what the executor call did.  On an
`OnTaskExecuting` error, `OnTaskFailed` fires and the function returns.
Otherwise `OnTaskStarted` fires, the executor runs, and afterwards
`OnTaskCompleted` fires when a result exists, else `OnTaskFailed` when an
error exists.  A recovered panic skips everything after the executor
call. -/
def executeTaskEvents (onExecutingErr : Option String) (call : ExecCall) :
    List HandlerEvent :=
  match onExecutingErr with
  | some _ => [HandlerEvent.executing, HandlerEvent.failed]
  | none =>
    match call with
    | .panicked => [HandlerEvent.executing, HandlerEvent.started]
    | .returned res err =>
      [HandlerEvent.executing, HandlerEvent.started] ++
        (if res.isSome then [HandlerEvent.completed]
         else if err.isSome then [HandlerEvent.failed]
         else [])

/-- Number of terminal callbacks (`OnTaskCompleted` or `OnTaskFailed`) in a
callback sequence. -/
def terminalCount (events : List HandlerEvent) : Nat :=
  events.countP (fun e => e = HandlerEvent.completed ∨ e = HandlerEvent.failed)

/-! ## Running-task table (scheduler.go lines 377-386 and 443-455)

The table `runningTasks : map[string]context.CancelFunc` is embedded as an
association list from key to an abstract cancel handle. -/

/-- Go map assignment `m[k] = v`: replace any entry with the same key. -/
def mapAssign (table : List (String × Nat)) (k : String) (v : Nat) :
    List (String × Nat) :=
  (table.filter (fun e => e.1 ≠ k)) ++ [(k, v)]

/-- Go map deletion `delete(m, k)`. -/
def mapDelete (table : List (String × Nat)) (k : String) : List (String × Nat) :=
  table.filter (fun e => e.1 ≠ k)

/-- Registration performed by `executeTask` before invoking the executor
(scheduler.go lines 377-380): the cancel function is stored under
`req.TaskID` — and under that key only. -/
def executeTaskRegister (table : List (String × Nat)) (req : ExecutionRequest)
    (cancel : Nat) : List (String × Nat) :=
  mapAssign table req.TaskID cancel

/-- Deregistration performed by the deferred block of `executeTask`
(scheduler.go lines 382-386). -/
def executeTaskDeregister (table : List (String × Nat)) (req : ExecutionRequest) :
    List (String × Nat) :=
  mapDelete table req.TaskID

/-- Embedding of `Scheduler.StopTask` (scheduler.go lines 443-455): look up
the cancel function under the task id; when present invoke it and return
true, otherwise return false.  The invoked cancel handle is reported. -/
def StopTask (table : List (String × Nat)) (taskID : String) :
    Bool × Option Nat :=
  match table.lookup taskID with
  | some cancel => (true, some cancel)
  | none => (false, none)

/-! ## Queue operations (scheduler.go lines 240-267) -/

/-- Scheduler queue state: the buffered channel contents and its capacity,
plus the trace of observable actions. -/
inductive QueueEvent where
  | scheduled (req : ExecutionRequest)
  | queueFullWarning (taskID : String)
  | executedDirectly (req : ExecutionRequest)
  deriving DecidableEq, Repr

/-- State of the scheduler's task queue. -/
structure QueueState where
  queue : List ExecutionRequest
  capacity : Nat
  events : List QueueEvent
  deriving DecidableEq, Repr

/-- Embedding of `Scheduler.Enqueue` (scheduler.go lines 241-252): the
non-blocking send on the buffered channel succeeds exactly when the buffer
has room; on success `OnTaskScheduled` fires, on failure an error is
returned and nothing changes. -/
def Enqueue (s : QueueState) (req : ExecutionRequest) :
    QueueState × Option String :=
  if s.queue.length < s.capacity then
    ({ s with queue := s.queue ++ [req],
              events := s.events ++ [QueueEvent.scheduled req] }, none)
  else
    (s, some "任务队列已满")

/-- Embedding of `Scheduler.EnqueueOrExecute` (scheduler.go lines 254-267):
same non-blocking send; when the queue is full it logs a warning and runs
the task immediately in a fresh goroutine instead of dropping it. -/
def EnqueueOrExecute (s : QueueState) (req : ExecutionRequest) : QueueState :=
  if s.queue.length < s.capacity then
    { s with queue := s.queue ++ [req],
             events := s.events ++ [QueueEvent.scheduled req] }
  else
    { s with events := s.events ++
        [QueueEvent.queueFullWarning req.TaskID, QueueEvent.executedDirectly req] }

/-! ## Per-task concurrency gate (executor_service.go lines 685-735)

`running_go` is a JSON array of goroutine ids maintained under a row-level
`SELECT ... FOR UPDATE` lock; it is embedded here as the list of int64
tokens it encodes, and the two transactions as sequential functions on that
list. -/

/-- Embedding of `ExecutorService.AddRunningGo` (executor_service.go lines
685-713): under the row lock, when the parsed config has `Concurrency == 0`
and the decoded `running_go` list is non-empty the transaction aborts with
"task is running"; otherwise the new goroutine id is appended and
persisted. -/
def AddRunningGo (concurrency : Nat) (goids : List Int) (goid : Int) :
    Except String (List Int) :=
  if concurrency = 0 ∧ goids.length > 0 then
    Except.error "task is running"
  else
    Except.ok (goids ++ [goid])

/-- Embedding of `ExecutorService.RemoveRunningGo` (executor_service.go
lines 716-735): the given goroutine id is filtered out of the list and the
result persisted. -/
def RemoveRunningGo (goids : List Int) (goid : Int) : List Int :=
  goids.filter (fun id => id ≠ goid)

/-- One serialized operation on a task's `running_go` row: a run trying to
start (`add`, which the gate may reject) or a run completing or failing
(`remove`). -/
inductive RunGoOp where
  | add (goid : Int)
  | remove (goid : Int)
  deriving DecidableEq, Repr

/-- Effect of one operation on the persisted `running_go` list; a rejected
`add` leaves the row unchanged. -/
def runGoStep (concurrency : Nat) (goids : List Int) : RunGoOp → List Int
  | .add g =>
    match AddRunningGo concurrency goids g with
    | .ok updated => updated
    | .error _ => goids
  | .remove g => RemoveRunningGo goids g

/-- The persisted `running_go` list after a serialized sequence of
operations starting from a given row value. -/
def runGoTrace (concurrency : Nat) (init : List Int) (ops : List RunGoOp) :
    List Int :=
  ops.foldl (runGoStep concurrency) init

/-! ## Remote dispatcher (executor_service.go lines 738-796) -/

/-- Result frame delivered by an agent, `models.AgentTaskResult` restricted
to the translated fields. -/
structure AgentTaskResult where
  Output : String
  Error : String
  Status : String
  Duration : Int
  ExitCode : Int
  deriving DecidableEq, Repr

/-- Result-waiter registry operations observable during one call of
`ExecuteRemoteForScheduler`, in program order. -/
inductive WaiterEvent where
  | registered (logID : Nat)
  | unregistered (logID : Nat)
  deriving DecidableEq, Repr

/-- Environment of one `ExecuteRemoteForScheduler` call: whether the agent
row exists and is enabled, whether the manager is initialized, whether the
execute frame could be sent, and the result delivered to the waiter within
the wait window (`none` = timeout). -/
structure RemoteScenario where
  agentFound : Bool
  agentEnabled : Bool
  managerReady : Bool
  sendOk : Bool
  delivered : Option AgentTaskResult
  deriving DecidableEq, Repr

/-- Outcome of `ExecuteRemoteForScheduler`: the returned result and error,
the waiter-registry trace, and the effective wait window in minutes
(`none` when the call never reached the wait). -/
structure RemoteOutcome where
  result : Option Result
  errReturned : Option String
  waiterTrace : List WaiterEvent
  waitMinutes : Option Int
  deriving DecidableEq, Repr

/-- Embedding of `ExecutorService.ExecuteRemoteForScheduler`
(executor_service.go lines 738-796).  Agent checks precede waiter
registration; from registration on, the deferred
`UnregisterRemoteWaiter` runs on every return path.  The wait window is
`task.Timeout` minutes, defaulting to 30 when not positive.  On delivery
the agent result is translated; on timeout a synthetic failed result with
error "等待 Agent 结果超时" and exit code -1 is returned together with an
error. -/
def ExecuteRemoteForScheduler (taskTimeout : Int) (logID : Nat)
    (sc : RemoteScenario) : RemoteOutcome :=
  if ¬ sc.agentFound then
    { result := none, errReturned := some "Agent 不存在", waiterTrace := [], waitMinutes := none }
  else if ¬ sc.agentEnabled then
    { result := none, errReturned := some "Agent 已禁用", waiterTrace := [], waitMinutes := none }
  else if ¬ sc.managerReady then
    { result := none, errReturned := some "AgentWSManager 未初始化", waiterTrace := [], waitMinutes := none }
  else if ¬ sc.sendOk then
    { result := none, errReturned := some "发送执行命令失败"
      waiterTrace := [WaiterEvent.registered logID, WaiterEvent.unregistered logID]
      waitMinutes := none }
  else
    let timeout := if taskTimeout ≤ 0 then 30 else taskTimeout
    match sc.delivered with
    | some agentResult =>
      { result := some { Status := agentResult.Status, Error := agentResult.Error,
                         ExitCode := agentResult.ExitCode }
        errReturned := none
        waiterTrace := [WaiterEvent.registered logID, WaiterEvent.unregistered logID]
        waitMinutes := some timeout }
    | none =>
      { result := some { Status := "failed", Error := "等待 Agent 结果超时", ExitCode := -1 }
        errReturned := some "等待 Agent 结果超时"
        waiterTrace := [WaiterEvent.registered logID, WaiterEvent.unregistered logID]
        waitMinutes := some timeout }

/-! ## Heartbeat goroutine (executor.go lines 210-226)

The goroutine ticks every 3 seconds and calls `hooks.OnHeartbeat` directly,
with no deferred `recover` anywhere in its body; in Go an unrecovered panic
in any goroutine terminates the whole process. -/

/-- Outcome of the heartbeat goroutine when the child runs for `ticks` full
3-second ticks: the hook-call instants in milliseconds since start, and
whether an escaped hook panic aborted the process. -/
structure HeartbeatOutcome where
  callsMs : List Nat
  aborted : Bool
  deriving DecidableEq, Repr

/-- Embedding of the heartbeat goroutine body of `ExecuteWithHooks`
(executor.go lines 211-226): on the k-th tick (at 3000·k ms) the hook is
invoked; because the goroutine installs no `recover`, a hook panic at that
tick escapes the goroutine and aborts the process, so no further ticks
run. -/
def heartbeatRun (hookPanicsAt : Nat → Bool) (ticks : Nat) : HeartbeatOutcome :=
  go 1 ticks []
where
  go (k remaining : Nat) (acc : List Nat) : HeartbeatOutcome :=
    match remaining with
    | 0 => { callsMs := acc, aborted := false }
    | r + 1 =>
      if hookPanicsAt k then
        { callsMs := acc ++ [3000 * k], aborted := true }
      else
        go (k + 1) r (acc ++ [3000 * k])

/-! ## UTF-8 primitives (Go `unicode/utf8`, used by TinyLog.Write)

Bytes are embedded as `Nat` values below 256.  The classification mirrors
Go's `first` table and `acceptRanges`: `utf8Size b0` is the sequence length
a leading byte announces (0 for bytes that can never lead a sequence:
continuation bytes 0x80-0xBF, the overlong leaders 0xC0-0xC1 and everything
from 0xF5 up), and `utf8Lo`/`utf8Hi` bound the first continuation byte. -/

/-- Sequence length announced by a leading byte (Go's `first` table; 0 for
invalid leaders). -/
def utf8Size (b0 : Nat) : Nat :=
  if b0 < 0x80 then 1
  else if b0 < 0xC2 then 0
  else if b0 < 0xE0 then 2
  else if b0 < 0xF0 then 3
  else if b0 < 0xF5 then 4
  else 0

/-- Lower bound for the first continuation byte (Go `acceptRanges`). -/
def utf8Lo (b0 : Nat) : Nat :=
  if b0 = 0xE0 then 0xA0
  else if b0 = 0xF0 then 0x90
  else 0x80

/-- Upper bound for the first continuation byte (Go `acceptRanges`). -/
def utf8Hi (b0 : Nat) : Nat :=
  if b0 = 0xED then 0x9F
  else if b0 = 0xF4 then 0x8F
  else 0xBF

/-- Whether a byte is a UTF-8 continuation byte; for bytes this is the
negation of Go's `utf8.RuneStart` (`b & 0xC0 == 0x80`). -/
def isCont (b : Nat) : Bool :=
  0x80 ≤ b ∧ b ≤ 0xBF

/-- Go `utf8.RuneStart`: `b & 0xC0 != 0x80`, i.e. not a continuation
byte. -/
def utf8RuneStart (b : Nat) : Bool :=
  ! isCont b

/-- The Unicode replacement character U+FFFD, Go `utf8.RuneError`. -/
def RuneErrorRune : Nat := 0xFFFD

/-- Go `utf8.DecodeRune`: decode the first rune of a byte sequence,
returning the rune and the number of bytes consumed.  Any invalid or
incomplete encoding yields `(RuneError, 1)`; the empty input yields size 0
(never reached by the decode loop). -/
def decodeRune (p : List Nat) : Nat × Nat :=
  match p with
  | [] => (RuneErrorRune, 0)
  | b0 :: rest =>
    let sz := utf8Size b0
    if sz = 0 then (RuneErrorRune, 1)
    else if sz = 1 then (b0, 1)
    else
      match rest with
      | [] => (RuneErrorRune, 1)
      | b1 :: rest2 =>
        if b1 < utf8Lo b0 ∨ utf8Hi b0 < b1 then (RuneErrorRune, 1)
        else if sz = 2 then ((b0 - 0xC0) * 0x40 + (b1 - 0x80), 2)
        else
          match rest2 with
          | [] => (RuneErrorRune, 1)
          | b2 :: rest3 =>
            if ¬ isCont b2 then (RuneErrorRune, 1)
            else if sz = 3 then
              ((b0 - 0xE0) * 0x1000 + (b1 - 0x80) * 0x40 + (b2 - 0x80), 3)
            else
              match rest3 with
              | [] => (RuneErrorRune, 1)
              | b3 :: _ =>
                if ¬ isCont b3 then (RuneErrorRune, 1)
                else ((b0 - 0xF0) * 0x40000 + (b1 - 0x80) * 0x1000 +
                        (b2 - 0x80) * 0x40 + (b3 - 0x80), 4)

/-- Go `utf8.FullRune`: whether the input starts with a full rune encoding.
True when the announced length fits, or when the encoding is already
determined invalid (an invalid leader, or an observed out-of-range
continuation byte); false when the bytes so far are a proper prefix of a
still-possible encoding. -/
def utf8FullRune (p : List Nat) : Bool :=
  match p with
  | [] => false
  | b0 :: rest =>
    let sz := utf8Size b0
    if sz = 0 ∨ sz = 1 then true
    else if sz ≤ p.length then true
    else
      match rest with
      | [] => false
      | b1 :: rest2 =>
        if b1 < utf8Lo b0 ∨ utf8Hi b0 < b1 then true
        else
          match rest2 with
          | [] => false
          | b2 :: _ => if ¬ isCont b2 then true else false

/-- Lenient decoding of a whole byte sequence into runes: repeatedly apply
`decodeRune`, emitting U+FFFD for each invalid byte, exactly as Go's
`for ... range` over a byte string does. -/
def decodeList (p : List Nat) : List Nat :=
  match p with
  | [] => []
  | b0 :: rest =>
    let d := decodeRune (b0 :: rest)
    -- decodeRune consumes at least one byte on nonempty input; max keeps
    -- the recursion structurally decreasing.
    d.1 :: decodeList ((b0 :: rest).drop (max d.2 1))
termination_by p.length
decreasing_by
  simp only [List.length_drop, List.length_cons]
  omega

/-- Go `utf8.EncodeRune` for the runes produced by `decodeRune` (all of
which are valid scalar values). -/
def encodeRune (r : Nat) : List Nat :=
  if r < 0x80 then [r]
  else if r < 0x800 then [0xC0 + r / 0x40, 0x80 + r % 0x40]
  else if r < 0x10000 then
    [0xE0 + r / 0x1000, 0x80 + (r / 0x40) % 0x40, 0x80 + r % 0x40]
  else
    [0xF0 + r / 0x40000, 0x80 + (r / 0x1000) % 0x40,
     0x80 + (r / 0x40) % 0x40, 0x80 + r % 0x40]

/-- Modelled from the spec: `utils.ToUTF8` is not among the provided source
files; per spec §4.2 the collector interprets the complete prefix "as UTF-8
(transcoding via a lenient replace-invalid policy)".  It is embedded as
the canonical lenient transcoding: decode with U+FFFD replacement (Go
`unicode/utf8` semantics), then re-encode. -/
def ToUTF8 (p : List Nat) : List Nat :=
  ((decodeList p).map encodeRune).flatten

/-- Whether a byte list is empty or starts with a non-continuation byte; a
transcoding boundary in front of such a list is never crossed by a valid
UTF-8 sequence. -/
def headNotCont : List Nat → Bool
  | [] => true
  | b :: _ => ! isCont b

/-- Every suffix of length one to three starts with a full rune encoding:
the lenient decoding of such a list never wants bytes beyond its end, so a
transcoding boundary after it is safe. -/
def utf8TailFull (x : List Nat) : Prop :=
  ∀ k, 1 ≤ k → k ≤ 3 → k ≤ x.length →
    utf8FullRune (x.drop (x.length - k)) = true

/-! ## TinyLog (streaming log collector, TinyLog.Write / Close /
CompressAndCleanup)

The collector state is reduced to what determines the compressed output:
the bytes that have gone through the buffered writer (the temp-file
content once flushed), the residual bytes held back from a trailing
partial UTF-8 sequence, and the closed flag.  Subscriber fan-out and the
process-wide registry do not influence the file content and are
omitted. -/

/-- In-memory state of one TinyLog. -/
structure TinyLog where
  fileBytes : List Nat
  remainder : List Nat
  closed : Bool
  deriving DecidableEq, Repr

/-- Fresh TinyLog as produced by `NewTinyLog`: empty temp file, no
residual, open. -/
def TinyLog.new : TinyLog :=
  { fileBytes := [], remainder := [], closed := false }

/-- Result of the backward scan in `TinyLog.Write` over the last at most
four bytes of the payload (the for-loop at part_011 lines 101-111):
`noStart` when no rune-start byte occurs in the window, `fullAt i` when the
nearest rune start at index `i` begins a full rune (loop breaks without
setting a cut), `cutAt i` when it begins a partial rune (loop records the
cut and breaks). -/
inductive ScanResult where
  | noStart
  | fullAt (i : Nat)
  | cutAt (i : Nat)
  deriving DecidableEq, Repr

/-- The scan loop, walking index `i` downward for at most `steps` visits. -/
def scanLoop (payload : List Nat) : Nat → Nat → ScanResult
  | _, 0 => ScanResult.noStart
  | i, steps + 1 =>
    if utf8RuneStart (payload.getD i 0) then
      if utf8FullRune (payload.drop i) then ScanResult.fullAt i
      else ScanResult.cutAt i
    else if i = 0 then ScanResult.noStart
    else scanLoop payload (i - 1) steps

/-- The backward scan of `TinyLog.Write`: start at the last byte and visit
at most `min 4 payload.length` indices, never going below index 0. -/
def scanCut (payload : List Nat) : ScanResult :=
  match payload with
  | [] => ScanResult.noStart
  | a :: l => scanLoop (a :: l) ((a :: l).length - 1) (min 4 (a :: l).length)

/-- Embedding of `TinyLog.Write` (part_011 lines 82-141).  On a closed log
it returns `os.ErrClosed`.  Otherwise the residual from the previous call
is prepended, the trailing partial UTF-8 sequence (if any) is retained as
the new residual, the complete prefix is transcoded by `ToUTF8` and
appended to the file buffer, and the length of the original input is
returned. -/
def TinyLog.Write (l : TinyLog) (p : List Nat) : TinyLog × Except String Nat :=
  if l.closed then
    (l, Except.error "file already closed")
  else
    let originalInputLen := p.length
    let payload := l.remainder ++ p
    match scanCut payload with
    | ScanResult.cutAt i =>
      if i = 0 then
        -- the entire payload is one partial rune: keep it all, write nothing
        ({ l with remainder := payload }, Except.ok originalInputLen)
      else
        ({ l with fileBytes := l.fileBytes ++ ToUTF8 (payload.take i),
                  remainder := payload.drop i }, Except.ok originalInputLen)
    | ScanResult.noStart =>
      ({ l with fileBytes := l.fileBytes ++ ToUTF8 payload, remainder := [] },
        Except.ok originalInputLen)
    | ScanResult.fullAt _ =>
      ({ l with fileBytes := l.fileBytes ++ ToUTF8 payload, remainder := [] },
        Except.ok originalInputLen)

/-- Embedding of `TinyLog.Close` (part_011 lines 168-206): transcode and
flush the residual as a final chunk, flush the buffer, mark closed.
Closing twice is a no-op. -/
def TinyLog.Close (l : TinyLog) : TinyLog :=
  if l.closed then l
  else { fileBytes := l.fileBytes ++ ToUTF8 l.remainder, remainder := [], closed := true }

/-- Sequential writes, ignoring the returned byte counts. -/
def TinyLog.writeAll (l : TinyLog) (ws : List (List Nat)) : TinyLog :=
  ws.foldl (fun s w => (s.Write w).1) l

/-! ## Base64 codec (Go `encoding/base64`, `StdEncoding` with padding)

`CompressAndCleanup` streams through `base64.NewEncoder(StdEncoding, ...)`;
the standard alphabet and padding are embedded here together with the
matching decoder used to state the round-trip claim. -/

/-- The standard base64 alphabet. -/
def b64Alphabet : List Char :=
  ['A','B','C','D','E','F','G','H','I','J','K','L','M','N','O','P',
   'Q','R','S','T','U','V','W','X','Y','Z',
   'a','b','c','d','e','f','g','h','i','j','k','l','m','n','o','p',
   'q','r','s','t','u','v','w','x','y','z',
   '0','1','2','3','4','5','6','7','8','9','+','/']

/-- Character for a 6-bit value. -/
def b64Chr (v : Nat) : Char :=
  b64Alphabet.getD v '='

/-- 6-bit value of an alphabet character. -/
def b64Val (c : Char) : Option Nat :=
  b64Alphabet.findIdx? (fun a => a = c)

/-- Encode a byte sequence in standard base64 with padding. -/
def base64Encode : List Nat → List Char
  | [] => []
  | [a] => [b64Chr (a / 4), b64Chr (a % 4 * 16), '=', '=']
  | [a, b] => [b64Chr (a / 4), b64Chr (a % 4 * 16 + b / 16), b64Chr (b % 16 * 4), '=']
  | a :: b :: c :: rest =>
    [b64Chr (a / 4), b64Chr (a % 4 * 16 + b / 16),
     b64Chr (b % 16 * 4 + c / 64), b64Chr (c % 64)] ++ base64Encode rest

/-- Decode standard base64 with padding; `none` on malformed input. -/
def base64DecodeChars : List Char → Option (List Nat)
  | [] => some []
  | c1 :: c2 :: c3 :: c4 :: rest =>
    match b64Val c1, b64Val c2 with
    | some v1, some v2 =>
      if c3 = '=' ∧ c4 = '=' ∧ rest = [] then
        some [v1 * 4 + v2 / 16]
      else if c4 = '=' ∧ rest = [] then
        match b64Val c3 with
        | some v3 => some [v1 * 4 + v2 / 16, v2 % 16 * 16 + v3 / 4]
        | none => none
      else
        match b64Val c3, b64Val c4, base64DecodeChars rest with
        | some v3, some v4, some tail =>
          some ([v1 * 4 + v2 / 16, v2 % 16 * 16 + v3 / 4, v3 % 4 * 64 + v4] ++ tail)
        | _, _, _ => none
    | _, _ => none
  | _ => none

/-- Decode a base64 string to bytes. -/
def base64Decode (s : String) : Option (List Nat) :=
  base64DecodeChars s.data

/-! ## Zlib codec (Go `compress/zlib`)

`CompressAndCleanup` streams the temp file through `zlib.NewWriter`.  The
codec is external library code; it is embedded by a matched
compressor/decompressor pair over the stored-block (uncompressed) subset of
DEFLATE, which satisfies the same contract: a valid zlib stream (header,
DEFLATE blocks, Adler-32 trailer) whose decompression returns exactly the
bytes written in. -/

/-- Adler-32 checksum of a byte sequence (RFC 1950). -/
def adler32 (bytes : List Nat) : Nat :=
  let s := bytes.foldl
    (fun (ab : Nat × Nat) b => ((ab.1 + b) % 65521, (ab.2 + ab.1 + b) % 65521))
    (1, 0)
  s.2 * 65536 + s.1

/-- Split a byte sequence into stored-block payloads of at most 65535
bytes. -/
def chunkBytes (l : List Nat) : List (List Nat) :=
  match l with
  | [] => []
  | x :: xs =>
    (x :: xs).take 65535 :: chunkBytes ((x :: xs).drop 65535)
termination_by l.length
decreasing_by
  simp only [List.length_drop, List.length_cons]
  omega

/-- One stored DEFLATE block: the BFINAL/BTYPE byte (BTYPE=00), LEN and
NLEN little-endian, then the raw data. -/
def storedBlock (final : Bool) (data : List Nat) : List Nat :=
  let len := data.length
  (if final then 1 else 0) :: len % 256 :: len / 256 ::
    (65535 - len) % 256 :: (65535 - len) / 256 :: data

/-- Encode the chunk list as a DEFLATE stream of stored blocks; the empty
input becomes a single final empty block. -/
def storedBlocks : List (List Nat) → List Nat
  | [] => storedBlock true []
  | [c] => storedBlock true c
  | c :: c2 :: rest => storedBlock false c ++ storedBlocks (c2 :: rest)

/-- Big-endian 4-byte encoding of a checksum. -/
def beBytes4 (n : Nat) : List Nat :=
  [n / 0x1000000 % 256, n / 0x10000 % 256, n / 0x100 % 256, n % 256]

/-- Zlib compression of a byte sequence: the 0x78 0x01 header, the stored
DEFLATE blocks, and the big-endian Adler-32 of the input. -/
def zlibCompress (bytes : List Nat) : List Nat :=
  [0x78, 0x01] ++ storedBlocks (chunkBytes bytes) ++ beBytes4 (adler32 bytes)

/-- Parse a sequence of stored DEFLATE blocks; returns the decompressed
data and the remaining input after the final block. -/
def parseStoredBlocks : Nat → List Nat → List Nat → Option (List Nat × List Nat)
  | 0, _, _ => none
  | fuel + 1, bhdr :: l1 :: l2 :: n1 :: n2 :: rest, acc =>
    if bhdr / 2 % 4 ≠ 0 then none
    else
      let len := l1 + l2 * 256
      if n1 + n2 * 256 ≠ 65535 - len then none
      else if rest.length < len then none
      else
        let data := rest.take len
        if bhdr % 2 = 1 then some (acc ++ data, rest.drop len)
        else parseStoredBlocks fuel (rest.drop len) (acc ++ data)
  | _ + 1, _, _ => none

/-- Zlib decompression (restricted to stored blocks): check the header,
inflate the blocks, and verify the Adler-32 trailer. -/
def zlibDecompress (input : List Nat) : Option (List Nat) :=
  match input with
  | cmf :: flg :: rest =>
    if cmf % 16 ≠ 8 ∨ (cmf * 256 + flg) % 31 ≠ 0 then none
    else
      match parseStoredBlocks (rest.length + 1) rest [] with
      | some (data, [a1, a2, a3, a4]) =>
        if a1 * 0x1000000 + a2 * 0x10000 + a3 * 0x100 + a4 = adler32 data then
          some data
        else none
      | _ => none
  | _ => none

/-- Embedding of `TinyLog.CompressAndCleanup` (part_011 lines 209-244):
ensure the log is closed, then stream the temp-file content through zlib
and base64 into a string. -/
def TinyLog.CompressAndCleanup (l : TinyLog) : String :=
  let closedLog := l.Close
  String.mk (base64Encode (zlibCompress closedLog.fileBytes))

/-! ## Helper lemmas -/

/-- One serialized `running_go` operation keeps the list at length at most
one when concurrency is 0. -/
theorem runGoStep_length_le (l : List Int) (op : RunGoOp) (h : l.length ≤ 1) :
    (runGoStep 0 l op).length ≤ 1 := by
  cases op with
  | add g =>
    cases l with
    | nil => simp [runGoStep, AddRunningGo]
    | cons a t => simpa [runGoStep, AddRunningGo] using h
  | remove g =>
    exact le_trans (List.length_filter_le _ _) h

/-- A serialized trace of `running_go` operations keeps the list at length
at most one when concurrency is 0. -/
theorem runGoTrace_length_le (ops : List RunGoOp) :
    ∀ l : List Int, l.length ≤ 1 → (runGoTrace 0 l ops).length ≤ 1 := by
  induction ops with
  | nil => intro l h; simpa [runGoTrace] using h
  | cons op rest ih =>
    intro l h
    simpa [runGoTrace, List.foldl_cons] using
      ih (runGoStep 0 l op) (runGoStep_length_le l op h)

/-- Looking up the assigned key of a Go map assignment finds the assigned
value. -/
theorem lookup_mapAssign (t : List (String × Nat)) (k : String) (v : Nat) :
    (mapAssign t k v).lookup k = some v := by
  induction t with
  | nil => simp [mapAssign, List.lookup]
  | cons a t ih =>
    by_cases h : a.1 = k
    · simpa [mapAssign, List.filter_cons, h] using ih
    · have hbeq : (k == a.1) = false := by
        simp only [beq_eq_false_iff_ne]
        exact fun he => h he.symm
      simpa [mapAssign, List.filter_cons, h, List.lookup, hbeq] using ih

/-- Looking up a deleted key of a Go map finds nothing. -/
theorem lookup_mapDelete (t : List (String × Nat)) (k : String) :
    (mapDelete t k).lookup k = none := by
  induction t with
  | nil => simp [mapDelete, List.lookup]
  | cons a t ih =>
    by_cases h : a.1 = k
    · simpa [mapDelete, List.filter_cons, h] using ih
    · have hbeq : (k == a.1) = false := by
        simp only [beq_eq_false_iff_ne]
        exact fun he => h he.symm
      simpa [mapDelete, List.filter_cons, h, List.lookup, hbeq] using ih

/-- When `cmd.Start` succeeds, `ExecuteWithHooks` reaches `cmd.Wait` in
every transport mode, so the returned result is `waitResult` of the wait
error and the returned error is that wait error. -/
theorem ExecuteWithHooks_run (sc : ExecScenario) (h : sc.startOk = true) :
    (ExecuteWithHooks sc).result = waitResult sc.waitErr ∧
    (ExecuteWithHooks sc).errReturned = Option.map WaitErr.message sc.waitErr := by
  unfold ExecuteWithHooks
  by_cases h1 : ptyAttempted sc.os sc.stdout sc.stderr ∧ sc.ptyStartOk
  · rw [if_pos h1]
    exact ⟨rfl, rfl⟩
  · rw [if_neg h1, if_neg (not_not_intro h)]
    exact ⟨rfl, rfl⟩

/-! ## Claim C1 -/

/-- C1 counterexample: when the injected executor call panics inside
`executeTask`, the deferred `recover` (scheduler.go lines 299-303) only
logs, so neither `OnTaskCompleted` nor `OnTaskFailed` fires — the claim's
"exactly one ... including when a panic occurs" fails on this input. -/
theorem C1_panic_counterexample :
    terminalCount (executeTaskEvents none ExecCall.panicked) ≠ 1 := by
  decide

/-- C1 amended: exactly one of `OnTaskCompleted` / `OnTaskFailed` fires,
exactly once, whenever `OnTaskExecuting` returns an error or the executor
call returns with a result or an error; a panic inside the executor call
is recovered and logged but fires neither callback (as does a nil result
with nil error, which the in-repo executors never produce). -/
theorem C1_exactly_once_amended (oe : Option String) (res : Option Result)
    (err : Option String) :
    terminalCount (executeTaskEvents oe (ExecCall.returned res err)) =
      (if oe.isSome ∨ res.isSome ∨ err.isSome then 1 else 0) ∧
    terminalCount (executeTaskEvents oe ExecCall.panicked) =
      (if oe.isSome then 1 else 0) := by
  cases oe <;> cases res <;> cases err <;> simp [executeTaskEvents, terminalCount]

/-! ## Claim C2 -/

/-- C2: for a task whose parsed config has concurrency 0, `AddRunningGo`
rejects exactly when the `running_go` list is non-empty and otherwise
appends exactly the one new token; `RemoveRunningGo` removes that token
again; and any serialized trace of gate operations starting from the empty
list keeps at most one run in flight. -/
theorem C2_concurrency_gate (goids : List Int) (g : Int) (ops : List RunGoOp) :
    (AddRunningGo 0 goids g =
      if goids.isEmpty then Except.ok (goids ++ [g])
      else Except.error "task is running") ∧
    g ∉ RemoveRunningGo (goids ++ [g]) g ∧
    (runGoTrace 0 [] ops).length ≤ 1 := by
  refine ⟨?_, ?_, runGoTrace_length_le ops [] (by simp)⟩
  · cases goids <;> simp [AddRunningGo]
  · simp [RemoveRunningGo, List.mem_filter]

/-- C2 witness. -/
theorem C2_concurrency_gate_witness :
    (AddRunningGo 0 [] 5 =
      if ([] : List Int).isEmpty then Except.ok ([] ++ [5])
      else Except.error "task is running") ∧
    (5 : Int) ∉ RemoveRunningGo ([] ++ [5]) 5 ∧
    (runGoTrace 0 [] [RunGoOp.add 5, RunGoOp.add 6, RunGoOp.remove 5]).length ≤ 1 :=
  C2_concurrency_gate [] 5 [RunGoOp.add 5, RunGoOp.add 6, RunGoOp.remove 5]

/-! ## Claim C3 -/

/-- C3 counterexample: a request with timeout 0 gets no deadline on the
scheduler-level context (`schedCtxHasDeadline 0 = false`); the default 30
minutes lives only on the executor's internal context, and when that
deadline kills the child, `cmd.Wait` yields an `*exec.ExitError` for a
signal-terminated child.  The final status is "failed" — not "timeout" —
and the recorded exit code is -1 — not 1 — refuting both parts of the
claim at this input. -/
theorem C3_signal_exit_counterexample :
    schedCtxHasDeadline 0 = false ∧
    effectiveTimeoutMinutes 0 = 30 ∧
    (localRunFinalResult
      { os := GoOS.linux, stdout := Writer.other 1, stderr := Writer.other 1,
        ptyStartOk := true, osPipeOk := true, startOk := true,
        waitErr := some (WaitErr.exitError ProcState.signaled "signal: killed") }
      CtxErr.live).Status = "failed" ∧
    (localRunFinalResult
      { os := GoOS.linux, stdout := Writer.other 1, stderr := Writer.other 1,
        ptyStartOk := true, osPipeOk := true, startOk := true,
        waitErr := some (WaitErr.exitError ProcState.signaled "signal: killed") }
      CtxErr.live).ExitCode = -1 ∧
    ("failed" ≠ "timeout" ∧ (-1 : Int) ≠ 1) := by
  decide

/-- C3 amended: for a started child, the final status is "success" exactly
when `cmd.Wait` returned nil (exit code 0); when it returned an error the
status is overridden from the scheduler-level context — "cancelled" after
cancel, "timeout" after its deadline (which exists only when the request
timeout is positive; the executor-internal 30-minute default produces
plain "failed") — and otherwise stays "failed".  The exit code recorded
for a signal-terminated child is -1 (Go's `ExitCode()`), and 1 for a
non-ExitError failure. -/
theorem C3_status_mapping_amended (sc : ExecScenario) (ctxErr : CtxErr)
    (reqTimeout : Int) (hstart : sc.startOk = true) :
    (sc.waitErr = none →
      (localRunFinalResult sc ctxErr).Status = "success" ∧
      (localRunFinalResult sc ctxErr).ExitCode = 0) ∧
    (∀ e, sc.waitErr = some e →
      (localRunFinalResult sc ctxErr).Status =
        (match ctxErr with
         | CtxErr.canceled => "cancelled"
         | CtxErr.deadlineExceeded => "timeout"
         | CtxErr.live => "failed")) ∧
    (∀ ps m, sc.waitErr = some (WaitErr.exitError ps m) →
      (localRunFinalResult sc ctxErr).ExitCode = ps.goExitCode) ∧
    (∀ m, sc.waitErr = some (WaitErr.otherErr m) →
      (localRunFinalResult sc ctxErr).ExitCode = 1) ∧
    ProcState.signaled.goExitCode = -1 ∧
    (schedCtxHasDeadline reqTimeout = true ↔ reqTimeout > 0) := by
  have hloc : localRunFinalResult sc ctxErr =
      schedulerFinalResult (some (waitResult sc.waitErr)) sc.waitErr.isSome ctxErr := by
    have hrun := ExecuteWithHooks_run sc hstart
    show schedulerFinalResult (some (ExecuteWithHooks sc).result)
        ((ExecuteWithHooks sc).errReturned).isSome ctxErr = _
    rw [hrun.1, hrun.2]
    cases sc.waitErr <;> rfl
  refine ⟨?_, ?_, ?_, ?_, rfl, ?_⟩
  · intro hnone
    rw [hloc, hnone]
    cases ctxErr <;> simp [schedulerFinalResult, waitResult]
  · intro e he
    rw [hloc, he]
    cases e <;> cases ctxErr <;> simp [schedulerFinalResult, waitResult]
  · intro ps m he
    rw [hloc, he]
    cases ctxErr <;> simp [schedulerFinalResult, waitResult]
  · intro m he
    rw [hloc, he]
    cases ctxErr <;> simp [schedulerFinalResult, waitResult]
  · simp [schedCtxHasDeadline]

/-- C3 witness: a cancelled run with a signal-terminated child. -/
theorem C3_status_mapping_amended_witness :
    let sc : ExecScenario := { os := GoOS.linux, stdout := Writer.other 1, stderr := Writer.other 1, ptyStartOk := true, osPipeOk := true, startOk := true, waitErr := some (WaitErr.exitError ProcState.signaled "signal: terminated") }
    (sc.waitErr = none →
      (localRunFinalResult sc CtxErr.canceled).Status = "success" ∧
      (localRunFinalResult sc CtxErr.canceled).ExitCode = 0) ∧
    (∀ e, sc.waitErr = some e →
      (localRunFinalResult sc CtxErr.canceled).Status =
        (match CtxErr.canceled with
         | CtxErr.canceled => "cancelled"
         | CtxErr.deadlineExceeded => "timeout"
         | CtxErr.live => "failed")) ∧
    (∀ ps m, sc.waitErr = some (WaitErr.exitError ps m) →
      (localRunFinalResult sc CtxErr.canceled).ExitCode = ps.goExitCode) ∧
    (∀ m, sc.waitErr = some (WaitErr.otherErr m) →
      (localRunFinalResult sc CtxErr.canceled).ExitCode = 1) ∧
    ProcState.signaled.goExitCode = -1 ∧
    (schedCtxHasDeadline 5 = true ↔ (5 : Int) > 0) :=
  C3_status_mapping_amended _ CtxErr.canceled 5 (by decide)

/-! ## Claim C5 -/

/-- C5 counterexample: `executeTask` registers the cancel function under
the task id only (scheduler.go line 379).  For the request with task id
"5" and log id 7, the running-tasks table holds the single key "5": no
entry exists under the log id, and a stop keyed by the log id finds
nothing. -/
theorem C5_logid_counterexample :
    executeTaskRegister [] { TaskID := "5", LogID := 7, Command := "echo hi", Timeout := 1 } 42 =
      [("5", 42)] ∧
    (executeTaskRegister [] { TaskID := "5", LogID := 7, Command := "echo hi", Timeout := 1 } 42).lookup "7" = none ∧
    StopTask (executeTaskRegister [] { TaskID := "5", LogID := 7, Command := "echo hi", Timeout := 1 } 42) "7" =
      (false, none) := by
  decide

/-- C5 amended: the run's cancel function is registered in the
running-tasks table under the task id only, and that entry is removed by
the deferred block after the run ends; `StopTask(task-id)` invokes the
registered cancel function and returns whether one was found (false on an
absent key). -/
theorem C5_running_table_amended (table : List (String × Nat))
    (req : ExecutionRequest) (cancel : Nat) :
    ((executeTaskRegister table req cancel).lookup req.TaskID = some cancel) ∧
    ((executeTaskDeregister (executeTaskRegister table req cancel) req).lookup req.TaskID = none) ∧
    (StopTask (executeTaskRegister table req cancel) req.TaskID = (true, some cancel)) ∧
    (∀ t : List (String × Nat), t.lookup req.TaskID = none →
      StopTask t req.TaskID = (false, none)) := by
  refine ⟨lookup_mapAssign table req.TaskID cancel, lookup_mapDelete _ req.TaskID, ?_, ?_⟩
  · simp [StopTask, lookup_mapAssign table req.TaskID cancel, executeTaskRegister]
  · intro t ht
    simp [StopTask, ht]

/-- C5 amended witness. -/
theorem C5_running_table_amended_witness :
    let req : ExecutionRequest := { TaskID := "5", LogID := 7, Command := "echo hi", Timeout := 1 }
    ((executeTaskRegister [] req 42).lookup req.TaskID = some 42) ∧
    ((executeTaskDeregister (executeTaskRegister [] req 42) req).lookup req.TaskID = none) ∧
    (StopTask (executeTaskRegister [] req 42) req.TaskID = (true, some 42)) ∧
    (∀ t : List (String × Nat), t.lookup req.TaskID = none →
      StopTask t req.TaskID = (false, none)) :=
  C5_running_table_amended [] _ 42

/-! ## Claim C6 -/

/-- C6: `Enqueue` is non-blocking and returns an error exactly when the
queue is at capacity, in which case the request is not enqueued and
`OnTaskScheduled` does not fire; `EnqueueOrExecute` on a full queue logs a
warning and runs the job immediately in a new goroutine instead of
dropping it. -/
theorem C6_enqueue_behavior (s : QueueState) (req : ExecutionRequest)
    (hcap : s.queue.length ≤ s.capacity) :
    ((Enqueue s req).2.isSome ↔ s.queue.length = s.capacity) ∧
    ((Enqueue s req).2.isSome → (Enqueue s req).1 = s) ∧
    ((Enqueue s req).2 = none →
      (Enqueue s req).1.queue = s.queue ++ [req] ∧
      (Enqueue s req).1.events = s.events ++ [QueueEvent.scheduled req]) ∧
    (s.queue.length = s.capacity →
      EnqueueOrExecute s req =
        { s with events := s.events ++
            [QueueEvent.queueFullWarning req.TaskID,
             QueueEvent.executedDirectly req] }) := by
  by_cases hroom : s.queue.length < s.capacity
  · refine ⟨?_, ?_, ?_, ?_⟩
    · simp [Enqueue, hroom]
      omega
    · simp [Enqueue, hroom]
    · intro _
      simp [Enqueue, hroom]
    · intro heq
      omega
  · have heq : s.queue.length = s.capacity := by omega
    refine ⟨?_, ?_, ?_, ?_⟩
    · simp [Enqueue, hroom, heq]
    · intro _
      simp [Enqueue, hroom]
    · simp [Enqueue, hroom]
    · intro _
      simp [EnqueueOrExecute, hroom]

/-- C6 witness. -/
theorem C6_enqueue_behavior_witness :
    let s : QueueState := { queue := [], capacity := 1, events := [] }
    let req : ExecutionRequest := { TaskID := "1", LogID := 0, Command := "echo", Timeout := 1 }
    ((Enqueue s req).2.isSome ↔ s.queue.length = s.capacity) ∧
    ((Enqueue s req).2.isSome → (Enqueue s req).1 = s) ∧
    ((Enqueue s req).2 = none →
      (Enqueue s req).1.queue = s.queue ++ [req] ∧
      (Enqueue s req).1.events = s.events ++ [QueueEvent.scheduled req]) ∧
    (s.queue.length = s.capacity →
      EnqueueOrExecute s req =
        { s with events := s.events ++
            [QueueEvent.queueFullWarning req.TaskID,
             QueueEvent.executedDirectly req] }) :=
  C6_enqueue_behavior _ _ (by decide)

/-! ## Claim C7 -/

/-- C7: for an agent-bound dispatch that reaches waiter registration, the
waiter is registered and then unregistered on every return path (delivery,
timeout, and send failure); the wait window is the task timeout in minutes
with default 30; and on timeout a synthetic failed result with the
"等待 Agent 结果超时" error is returned. -/
theorem C7_remote_dispatch (taskTimeout : Int) (logID : Nat)
    (sc : RemoteScenario) (hA : sc.agentFound = true)
    (hE : sc.agentEnabled = true) (hM : sc.managerReady = true) :
    ((ExecuteRemoteForScheduler taskTimeout logID sc).waiterTrace =
      [WaiterEvent.registered logID, WaiterEvent.unregistered logID]) ∧
    (sc.sendOk = true →
      (ExecuteRemoteForScheduler taskTimeout logID sc).waitMinutes =
        some (if taskTimeout ≤ 0 then 30 else taskTimeout)) ∧
    (sc.sendOk = true → sc.delivered = none →
      (ExecuteRemoteForScheduler taskTimeout logID sc).result =
        some { Status := "failed", Error := "等待 Agent 结果超时", ExitCode := -1 } ∧
      (ExecuteRemoteForScheduler taskTimeout logID sc).errReturned =
        some "等待 Agent 结果超时") := by
  by_cases hS : sc.sendOk = true
  · refine ⟨?_, ?_, ?_⟩
    · cases hd : sc.delivered <;>
        simp [ExecuteRemoteForScheduler, hA, hE, hM, hS, hd]
    · intro _
      cases hd : sc.delivered <;>
        simp [ExecuteRemoteForScheduler, hA, hE, hM, hS, hd]
    · intro _ hd
      simp [ExecuteRemoteForScheduler, hA, hE, hM, hS, hd]
  · refine ⟨?_, ?_, ?_⟩
    · simp [ExecuteRemoteForScheduler, hA, hE, hM, hS]
    · intro hc
      exact absurd hc hS
    · intro hc
      exact absurd hc hS

/-- C7 witness: the timeout path with a default 30-minute window. -/
theorem C7_remote_dispatch_witness :
    let sc : RemoteScenario := { agentFound := true, agentEnabled := true, managerReady := true, sendOk := true, delivered := none }
    ((ExecuteRemoteForScheduler 0 9 sc).waiterTrace =
      [WaiterEvent.registered 9, WaiterEvent.unregistered 9]) ∧
    (sc.sendOk = true →
      (ExecuteRemoteForScheduler 0 9 sc).waitMinutes =
        some (if (0 : Int) ≤ 0 then 30 else 0)) ∧
    (sc.sendOk = true → sc.delivered = none →
      (ExecuteRemoteForScheduler 0 9 sc).result =
        some { Status := "failed", Error := "等待 Agent 结果超时", ExitCode := -1 } ∧
      (ExecuteRemoteForScheduler 0 9 sc).errReturned =
        some "等待 Agent 结果超时") :=
  C7_remote_dispatch 0 9 _ (by decide) (by decide) (by decide)

/-! ## Claim C8 -/

/-- C8: the heartbeat goroutine does invoke the hook every 3 seconds while
the child runs, but it installs no `recover`, so a hook panic at the first
tick escapes the goroutine and aborts the process mid-run — the claim's
"a panic inside the heartbeat hook does not abort the execution" is what
the code fails to provide. -/
theorem C8_heartbeat_panic_aborts :
    heartbeatRun (fun _ => false) 3 =
      { callsMs := [3000, 6000, 9000], aborted := false } ∧
    heartbeatRun (fun _ => true) 5 =
      { callsMs := [3000], aborted := true } := by
  constructor <;> rfl

/-! ## Claim C9 -/

/-- C9 counterexample: with stdout equal to the `io.Discard` null sink and
a distinct stderr on POSIX, the source condition attempts PTY mode while
the claim's condition (stdout == stderr and neither the null sink)
forbids it. -/
theorem C9_pty_discard_counterexample :
    ptyAttempted GoOS.linux Writer.discard (Writer.other 1) = true ∧
    ptyAttemptedSpec GoOS.linux Writer.discard (Writer.other 1) = false := by
  decide

/-- Closed form of the transport mode selected by `ExecuteWithHooks`. -/
theorem ExecuteWithHooks_mode (sc : ExecScenario) :
    (ExecuteWithHooks sc).mode =
      if ptyAttempted sc.os sc.stdout sc.stderr ∧ sc.ptyStartOk then
        some ExecMode.pty
      else if ¬ sc.startOk then none
      else some (if sc.stdout ≠ Writer.nilW ∧ sc.stdout = sc.stderr ∧ sc.osPipeOk then
          ExecMode.pipeSingle else ExecMode.pipeDirect) := by
  unfold ExecuteWithHooks
  split_ifs <;> rfl

/-- C9 amended: PTY mode is attempted exactly on POSIX with a non-nil
stdout that either equals stderr or is the `io.Discard` null sink; and
when PTY allocation fails the job is not failed — the executor downgrades
to a pipe transport and still runs the child to its normal result. -/
theorem C9_pty_mode_amended (sc : ExecScenario) (hstart : sc.startOk = true) :
    ((ExecuteWithHooks sc).mode = some ExecMode.pty ↔
      (ptyAttempted sc.os sc.stdout sc.stderr = true ∧ sc.ptyStartOk = true)) ∧
    (ptyAttempted sc.os sc.stdout sc.stderr = true → sc.ptyStartOk = false →
      (ExecuteWithHooks sc).mode ≠ some ExecMode.pty ∧
      (ExecuteWithHooks sc).mode ≠ none ∧
      (ExecuteWithHooks sc).result = waitResult sc.waitErr) := by
  have hmode := ExecuteWithHooks_mode sc
  by_cases h1 : ptyAttempted sc.os sc.stdout sc.stderr ∧ sc.ptyStartOk
  · rw [hmode, if_pos h1]
    refine ⟨by simpa using h1, ?_⟩
    intro _ hfail
    exact absurd h1.2 (by simp [hfail])
  · rw [hmode, if_neg h1, if_neg (not_not_intro hstart)]
    refine ⟨⟨?_, ?_⟩, ?_⟩
    · intro hEq
      exfalso
      split at hEq <;> simp at hEq
    · intro hcond
      exact absurd ⟨hcond.1, hcond.2⟩ h1
    · intro hattempt hfail
      refine ⟨?_, by simp, (ExecuteWithHooks_run sc hstart).1⟩
      intro hEq
      split at hEq <;> simp at hEq

/-- C9 witness: a merged-writer POSIX scenario whose PTY allocation
fails. -/
theorem C9_pty_mode_amended_witness :
    let sc : ExecScenario := { os := GoOS.linux, stdout := Writer.other 1, stderr := Writer.other 1, ptyStartOk := false, osPipeOk := true, startOk := true, waitErr := none }
    ((ExecuteWithHooks sc).mode = some ExecMode.pty ↔
      (ptyAttempted sc.os sc.stdout sc.stderr = true ∧ sc.ptyStartOk = true)) ∧
    (ptyAttempted sc.os sc.stdout sc.stderr = true → sc.ptyStartOk = false →
      (ExecuteWithHooks sc).mode ≠ some ExecMode.pty ∧
      (ExecuteWithHooks sc).mode ≠ none ∧
      (ExecuteWithHooks sc).result = waitResult sc.waitErr) :=
  C9_pty_mode_amended _ (by decide)

/-! ## Claim C10 -/

/-- C10: every successful write to an open TinyLog reports the full length
of the input slice as written, also when trailing bytes are only retained
as the residual or when the lenient transcoding changed the number of
bytes actually appended to the file. -/
theorem C10_write_returns_input_length (l : TinyLog) (p : List Nat)
    (h : l.closed = false) :
    (l.Write p).2 = Except.ok p.length := by
  rw [TinyLog.Write, if_neg (by simp [h])]
  cases hscan : scanCut (l.remainder ++ p) with
  | cutAt i => by_cases hi : i = 0 <;> simp [hscan, hi]
  | noStart => simp [hscan]
  | fullAt i => simp [hscan]

/-- C10 witness: a write whose trailing bytes are all retained as residual
still reports both input bytes as written. -/
theorem C10_write_returns_input_length_witness :
    (TinyLog.new.Write [0xE4, 0xBD]).2 = Except.ok 2 :=
  C10_write_returns_input_length TinyLog.new [0xE4, 0xBD] (by decide)

/-! ## UTF-8 classification lemmas -/

theorem utf8Size_le_four (b0 : Nat) : utf8Size b0 ≤ 4 := by
  unfold utf8Size
  split_ifs <;> omega

theorem utf8Size_cases (b0 : Nat) :
    utf8Size b0 = 0 ∨ utf8Size b0 = 1 ∨ utf8Size b0 = 2 ∨
      utf8Size b0 = 3 ∨ utf8Size b0 = 4 := by
  unfold utf8Size
  split_ifs <;> simp

theorem utf8Lo_ge (b0 : Nat) : 0x80 ≤ utf8Lo b0 := by
  unfold utf8Lo
  split_ifs <;> omega

theorem utf8Hi_le (b0 : Nat) : utf8Hi b0 ≤ 0xBF := by
  unfold utf8Hi
  split_ifs <;> omega

/-- A non-continuation byte lies outside every accept range for a first
continuation byte. -/
theorem noncont_out_of_accept (b0 c : Nat) (h : isCont c = false) :
    c < utf8Lo b0 ∨ utf8Hi b0 < c := by
  have h1 := utf8Lo_ge b0
  have h2 := utf8Hi_le b0
  simp only [isCont, decide_eq_false_iff_not, not_and, not_le] at h
  by_cases hc : 0x80 ≤ c
  · right
    exact lt_of_le_of_lt h2 (h hc)
  · left
    omega

/-- A continuation byte can never start a rune. -/
theorem utf8Size_eq_zero_of_cont (b : Nat) (h : utf8RuneStart b = false) :
    utf8Size b = 0 := by
  have h' : isCont b = true := by
    cases hic : isCont b
    · rw [utf8RuneStart, hic] at h
      cases h
    · rfl
  simp only [isCont, decide_eq_true_eq] at h'
  unfold utf8Size
  split_ifs <;> omega

/-- A rune start is not a continuation byte. -/
theorem cont_false_of_runeStart (b : Nat) (h : utf8RuneStart b = true) :
    isCont b = false := by
  simpa [utf8RuneStart] using h

theorem fullRune_of_size_eq_zero (b0 : Nat) (t : List Nat)
    (h : utf8Size b0 = 0) : utf8FullRune (b0 :: t) = true := by
  simp [utf8FullRune, h]

theorem fullRune_of_long (b0 : Nat) (t : List Nat)
    (h : 4 ≤ (b0 :: t).length) : utf8FullRune (b0 :: t) = true := by
  have h4 := utf8Size_le_four b0
  simp only [utf8FullRune]
  split_ifs with h1 h2
  · rfl
  · rfl
  · omega

/-- An observed non-continuation second byte makes the first rune full
(determined invalid). -/
theorem fullRune_of_b1_noncont (b0 b1 : Nat) (t : List Nat)
    (h : isCont b1 = false) : utf8FullRune (b0 :: b1 :: t) = true := by
  have hacc := noncont_out_of_accept b0 b1 h
  simp only [utf8FullRune]
  split_ifs <;> rfl

/-- An observed non-continuation third byte makes the first rune full. -/
theorem fullRune_of_b2_noncont (b0 b1 b2 : Nat) (t : List Nat)
    (h : isCont b2 = false) : utf8FullRune (b0 :: b1 :: b2 :: t) = true := by
  simp only [utf8FullRune]
  split_ifs with h1 h2 h3 h4 <;>
    first
      | rfl
      | exact absurd h4 (by simp [h])

/-! ## Decode agreement across safe boundaries -/

theorem decodeRune_agree (b0 : Nat) (t y : List Nat)
    (h : utf8FullRune (b0 :: t) = true ∨ headNotCont y = true) :
    decodeRune (b0 :: (t ++ y)) = decodeRune (b0 :: t) ∧
    1 ≤ (decodeRune (b0 :: t)).2 ∧
    (decodeRune (b0 :: t)).2 ≤ (b0 :: t).length := by
  rcases utf8Size_cases b0 with hsz | hsz | hsz | hsz | hsz
  · refine ⟨by simp [decodeRune, hsz], by simp [decodeRune, hsz], by simp [decodeRune, hsz]⟩
  · refine ⟨by simp [decodeRune, hsz], by simp [decodeRune, hsz], by simp [decodeRune, hsz]⟩
  · -- two-byte leader
    cases t with
    | nil =>
      cases y with
      | nil => exact ⟨by simp [decodeRune, hsz], by simp [decodeRune, hsz], by simp [decodeRune, hsz]⟩
      | cons c y' =>
        have hnc : isCont c = false := by
          rcases h with hfull | hnc
          · rw [show utf8FullRune [b0] = false from by simp [utf8FullRune, hsz]] at hfull
            cases hfull
          · simpa [headNotCont] using hnc
        have hacc := noncont_out_of_accept b0 c hnc
        refine ⟨?_, by simp [decodeRune, hsz], by simp [decodeRune, hsz]⟩
        simp only [decodeRune, hsz, List.nil_append]
        norm_num
        intro hle
        rcases hacc with h1 | h1 <;> omega
    | cons b1 t' =>
      by_cases hb1 : b1 < utf8Lo b0 ∨ utf8Hi b0 < b1
      · exact ⟨by simp [decodeRune, hsz, hb1], by simp [decodeRune, hsz, hb1],
          by simp [decodeRune, hsz, hb1]⟩
      · exact ⟨by simp [decodeRune, hsz, hb1], by simp [decodeRune, hsz, hb1],
          by simp [decodeRune, hsz, hb1]⟩
  · -- three-byte leader
    cases t with
    | nil =>
      cases y with
      | nil => exact ⟨by simp [decodeRune, hsz], by simp [decodeRune, hsz], by simp [decodeRune, hsz]⟩
      | cons c y' =>
        have hnc : isCont c = false := by
          rcases h with hfull | hnc
          · rw [show utf8FullRune [b0] = false from by simp [utf8FullRune, hsz]] at hfull
            cases hfull
          · simpa [headNotCont] using hnc
        have hacc := noncont_out_of_accept b0 c hnc
        refine ⟨?_, by simp [decodeRune, hsz], by simp [decodeRune, hsz]⟩
        simp only [decodeRune, hsz, List.nil_append]
        norm_num
        intro hle
        rcases hacc with h1 | h1 <;> omega
    | cons b1 t' =>
      by_cases hb1 : b1 < utf8Lo b0 ∨ utf8Hi b0 < b1
      · exact ⟨by simp [decodeRune, hsz, hb1], by simp [decodeRune, hsz, hb1],
          by simp [decodeRune, hsz, hb1]⟩
      · cases t' with
        | nil =>
          cases y with
          | nil => exact ⟨by simp [decodeRune, hsz, hb1], by simp [decodeRune, hsz, hb1],
              by simp [decodeRune, hsz, hb1]⟩
          | cons c y' =>
            have hnc : isCont c = false := by
              rcases h with hfull | hnc
              · rw [show utf8FullRune [b0, b1] = false from by
                  simp [utf8FullRune, hsz, hb1]] at hfull
                cases hfull
              · simpa [headNotCont] using hnc
            exact ⟨by simp [decodeRune, hsz, hb1, hnc], by simp [decodeRune, hsz, hb1],
              by simp [decodeRune, hsz, hb1]⟩
        | cons b2 t2 =>
          by_cases hc2 : isCont b2
          · exact ⟨by simp [decodeRune, hsz, hb1, hc2], by simp [decodeRune, hsz, hb1, hc2],
              by simp [decodeRune, hsz, hb1, hc2]⟩
          · exact ⟨by simp [decodeRune, hsz, hb1, hc2], by simp [decodeRune, hsz, hb1, hc2],
              by simp [decodeRune, hsz, hb1, hc2]⟩
  · -- four-byte leader
    cases t with
    | nil =>
      cases y with
      | nil => exact ⟨by simp [decodeRune, hsz], by simp [decodeRune, hsz], by simp [decodeRune, hsz]⟩
      | cons c y' =>
        have hnc : isCont c = false := by
          rcases h with hfull | hnc
          · rw [show utf8FullRune [b0] = false from by simp [utf8FullRune, hsz]] at hfull
            cases hfull
          · simpa [headNotCont] using hnc
        have hacc := noncont_out_of_accept b0 c hnc
        refine ⟨?_, by simp [decodeRune, hsz], by simp [decodeRune, hsz]⟩
        simp only [decodeRune, hsz, List.nil_append]
        norm_num
        intro hle
        rcases hacc with h1 | h1 <;> omega
    | cons b1 t' =>
      by_cases hb1 : b1 < utf8Lo b0 ∨ utf8Hi b0 < b1
      · exact ⟨by simp [decodeRune, hsz, hb1], by simp [decodeRune, hsz, hb1],
          by simp [decodeRune, hsz, hb1]⟩
      · cases t' with
        | nil =>
          cases y with
          | nil => exact ⟨by simp [decodeRune, hsz, hb1], by simp [decodeRune, hsz, hb1],
              by simp [decodeRune, hsz, hb1]⟩
          | cons c y' =>
            have hnc : isCont c = false := by
              rcases h with hfull | hnc
              · rw [show utf8FullRune [b0, b1] = false from by
                  simp [utf8FullRune, hsz, hb1]] at hfull
                cases hfull
              · simpa [headNotCont] using hnc
            exact ⟨by simp [decodeRune, hsz, hb1, hnc], by simp [decodeRune, hsz, hb1],
              by simp [decodeRune, hsz, hb1]⟩
        | cons b2 t2 =>
          by_cases hc2 : isCont b2
          · cases t2 with
            | nil =>
              cases y with
              | nil => exact ⟨by simp [decodeRune, hsz, hb1, hc2], by simp [decodeRune, hsz, hb1, hc2],
                  by simp [decodeRune, hsz, hb1, hc2]⟩
              | cons c y' =>
                have hnc : isCont c = false := by
                  rcases h with hfull | hnc
                  · rw [show utf8FullRune [b0, b1, b2] = false from by
                      simp [utf8FullRune, hsz, hb1, hc2]] at hfull
                    cases hfull
                  · simpa [headNotCont] using hnc
                exact ⟨by simp [decodeRune, hsz, hb1, hc2, hnc], by simp [decodeRune, hsz, hb1, hc2],
                  by simp [decodeRune, hsz, hb1, hc2]⟩
            | cons b3 t3 =>
              by_cases hc3 : isCont b3
              · exact ⟨by simp [decodeRune, hsz, hb1, hc2, hc3], by simp [decodeRune, hsz, hb1, hc2, hc3],
                  by simp [decodeRune, hsz, hb1, hc2, hc3]⟩
              · exact ⟨by simp [decodeRune, hsz, hb1, hc2, hc3], by simp [decodeRune, hsz, hb1, hc2, hc3],
                  by simp [decodeRune, hsz, hb1, hc2, hc3]⟩
          · exact ⟨by simp [decodeRune, hsz, hb1, hc2], by simp [decodeRune, hsz, hb1, hc2],
              by simp [decodeRune, hsz, hb1, hc2]⟩
/-! ## Decode-list concatenation and scan-window lemmas -/

theorem decodeList_nil : decodeList [] = [] := by
  rw [decodeList]

theorem decodeList_cons (b : Nat) (rest : List Nat) :
    decodeList (b :: rest) =
      (decodeRune (b :: rest)).1 ::
        decodeList ((b :: rest).drop (max (decodeRune (b :: rest)).2 1)) := by
  rw [decodeList]

theorem utf8TailFull_drop (x : List Nat) (s : Nat) (h : utf8TailFull x) :
    utf8TailFull (x.drop s) := by
  intro k h1 h3 hk
  rw [List.drop_drop]
  have hlen : (x.drop s).length = x.length - s := List.length_drop s x
  have harg : s + ((x.drop s).length - k) = x.length - k := by omega
  rw [harg]
  exact h k h1 h3 (by omega)

theorem decodeList_append_aux : ∀ (n : Nat) (x y : List Nat), x.length ≤ n →
    (utf8TailFull x ∨ headNotCont y = true) →
    decodeList (x ++ y) = decodeList x ++ decodeList y := by
  intro n
  induction n with
  | zero =>
    intro x y hlen _
    have hx : x = [] := List.eq_nil_of_length_eq_zero (Nat.le_zero.mp hlen)
    subst hx
    simp [decodeList_nil]
  | succ n ih =>
    intro x y hlen h
    cases x with
    | nil => simp [decodeList_nil]
    | cons b0 t =>
      have hfull_or : utf8FullRune (b0 :: t) = true ∨ headNotCont y = true := by
        rcases h with htf | hnc
        · left
          by_cases hlong : 4 ≤ (b0 :: t).length
          · exact fullRune_of_long b0 t hlong
          · have hk := htf (b0 :: t).length (by simp)
              (by simp only [List.length_cons]; simp only [List.length_cons] at hlong; omega)
              (le_refl _)
            simpa using hk
        · right
          exact hnc
      obtain ⟨heq, hge1, hle⟩ := decodeRune_agree b0 t y hfull_or
      have hmax : max (decodeRune (b0 :: t)).2 1 = (decodeRune (b0 :: t)).2 := by omega
      rw [List.cons_append, decodeList_cons, decodeList_cons b0 t, heq, hmax]
      rw [show (b0 :: (t ++ y)) = (b0 :: t) ++ y from rfl,
        List.drop_append_of_le_length hle]
      simp only [List.cons_append, List.cons.injEq, true_and]
      have hlen2 : ((b0 :: t).drop (decodeRune (b0 :: t)).2).length ≤ n := by
        simp only [List.length_drop, List.length_cons]
        simp only [List.length_cons] at hlen
        omega
      refine ih _ y hlen2 ?_
      rcases h with htf | hnc
      · exact Or.inl (utf8TailFull_drop _ _ htf)
      · exact Or.inr hnc
theorem decodeList_append (x y : List Nat)
    (h : utf8TailFull x ∨ headNotCont y = true) :
    decodeList (x ++ y) = decodeList x ++ decodeList y :=
  decodeList_append_aux x.length x y (le_refl _) h

theorem ToUTF8_append (x y : List Nat)
    (h : utf8TailFull x ∨ headNotCont y = true) :
    ToUTF8 (x ++ y) = ToUTF8 x ++ ToUTF8 y := by
  unfold ToUTF8
  rw [decodeList_append x y h, List.map_append, List.flatten_append]

theorem drop_eq_getD_cons (l : List Nat) (i : Nat) (h : i < l.length) :
    l.drop i = l.getD i 0 :: l.drop (i + 1) := by
  rw [List.drop_eq_getElem_cons h, List.getD_eq_getElem l 0 h]

theorem scanLoop_noStart (payload : List Nat) :
    ∀ steps i, scanLoop payload i steps = ScanResult.noStart →
      ∀ j, j ≤ i → i < j + steps → utf8RuneStart (payload.getD j 0) = false := by
  intro steps
  induction steps with
  | zero =>
    intro i h j hj1 hj2
    omega
  | succ n ih =>
    intro i h j hj1 hj2
    rw [scanLoop] at h
    by_cases h1 : utf8RuneStart (payload.getD i 0) = true
    · rw [if_pos h1] at h
      split_ifs at h
    · rw [if_neg h1] at h
      simp only [Bool.not_eq_true] at h1
      by_cases hi0 : i = 0
      · have hj : j = 0 := by omega
        rw [hi0] at h1
        rw [hj]
        exact h1
      · rw [if_neg hi0] at h
        by_cases hji : j = i
        · rw [hji]
          exact h1
        · exact ih (i - 1) h j (by omega) (by omega)

theorem scanLoop_cutAt (payload : List Nat) :
    ∀ steps i m, scanLoop payload i steps = ScanResult.cutAt m →
      utf8RuneStart (payload.getD m 0) = true ∧
      utf8FullRune (payload.drop m) = false ∧ m ≤ i ∧
      ∀ j, m < j → j ≤ i → utf8RuneStart (payload.getD j 0) = false := by
  intro steps
  induction steps with
  | zero =>
    intro i m h
    cases h
  | succ n ih =>
    intro i m h
    rw [scanLoop] at h
    by_cases h1 : utf8RuneStart (payload.getD i 0) = true
    · rw [if_pos h1] at h
      by_cases h2 : utf8FullRune (payload.drop i) = true
      · rw [if_pos h2] at h
        cases h
      · rw [if_neg h2] at h
        cases h
        exact ⟨h1, by simpa using h2, le_refl _, fun j hj1 hj2 => by omega⟩
    · rw [if_neg h1] at h
      simp only [Bool.not_eq_true] at h1
      by_cases hi0 : i = 0
      · rw [if_pos hi0] at h
        cases h
      · rw [if_neg hi0] at h
        obtain ⟨ha, hb, hc, hd⟩ := ih (i - 1) m h
        refine ⟨ha, hb, by omega, ?_⟩
        intro j hj1 hj2
        by_cases hji : j = i
        · rw [hji]
          exact h1
        · exact hd j hj1 (by omega)

theorem scanLoop_fullAt (payload : List Nat) :
    ∀ steps i m, scanLoop payload i steps = ScanResult.fullAt m →
      utf8RuneStart (payload.getD m 0) = true ∧
      utf8FullRune (payload.drop m) = true ∧ m ≤ i ∧
      ∀ j, m < j → j ≤ i → utf8RuneStart (payload.getD j 0) = false := by
  intro steps
  induction steps with
  | zero =>
    intro i m h
    cases h
  | succ n ih =>
    intro i m h
    rw [scanLoop] at h
    by_cases h1 : utf8RuneStart (payload.getD i 0) = true
    · rw [if_pos h1] at h
      by_cases h2 : utf8FullRune (payload.drop i) = true
      · rw [if_pos h2] at h
        cases h
        exact ⟨h1, h2, le_refl _, fun j hj1 hj2 => by omega⟩
      · rw [if_neg h2] at h
        cases h
    · rw [if_neg h1] at h
      simp only [Bool.not_eq_true] at h1
      by_cases hi0 : i = 0
      · rw [if_pos hi0] at h
        cases h
      · rw [if_neg hi0] at h
        obtain ⟨ha, hb, hc, hd⟩ := ih (i - 1) m h
        refine ⟨ha, hb, by omega, ?_⟩
        intro j hj1 hj2
        by_cases hji : j = i
        · rw [hji]
          exact h1
        · exact hd j hj1 (by omega)
theorem scanCut_cutAt (payload : List Nat) (m : Nat)
    (h : scanCut payload = ScanResult.cutAt m) :
    utf8RuneStart (payload.getD m 0) = true ∧
    utf8FullRune (payload.drop m) = false ∧ m < payload.length := by
  cases payload with
  | nil => cases h
  | cons a l =>
    rw [scanCut] at h
    obtain ⟨ha, hb, hc, _⟩ := scanLoop_cutAt (a :: l) (min 4 (a :: l).length) ((a :: l).length - 1) m h
    refine ⟨ha, hb, ?_⟩
    simp only [List.length_cons] at hc ⊢
    omega

theorem tailFull_of_noStart (payload : List Nat)
    (h : scanCut payload = ScanResult.noStart) : utf8TailFull payload := by
  intro k h1 h3 hk
  cases payload with
  | nil =>
    simp only [List.length_nil] at hk
    omega
  | cons a l =>
    rw [scanCut] at h
    have hwin := scanLoop_noStart (a :: l) (min 4 (a :: l).length) ((a :: l).length - 1) h
    have hlen : 1 ≤ (a :: l).length := by simp
    have hj : utf8RuneStart ((a :: l).getD ((a :: l).length - k) 0) = false := by
      refine hwin _ (by omega) ?_
      rcases Nat.le_total 4 (a :: l).length with hc | hc
      · rw [Nat.min_eq_left hc]
        omega
      · rw [Nat.min_eq_right hc]
        omega
    rw [drop_eq_getD_cons _ _ (by omega)]
    exact fullRune_of_size_eq_zero _ _ (utf8Size_eq_zero_of_cont _ hj)

theorem tailFull_of_fullAt (payload : List Nat) (m : Nat)
    (h : scanCut payload = ScanResult.fullAt m) : utf8TailFull payload := by
  intro k h1 h3 hk
  cases payload with
  | nil =>
    simp only [List.length_nil] at hk
    omega
  | cons a l =>
    rw [scanCut] at h
    obtain ⟨hrs, hfull, hm, hwin⟩ :=
      scanLoop_fullAt (a :: l) (min 4 (a :: l).length) ((a :: l).length - 1) m h
    have hlen : 1 ≤ (a :: l).length := by simp
    rcases lt_trichotomy ((a :: l).length - k) m with hlt | heq | hgt
    · have hcont : isCont ((a :: l).getD m 0) = false := cont_false_of_runeStart _ hrs
      have hd : m - ((a :: l).length - k) = 1 ∨ m - ((a :: l).length - k) = 2 := by omega
      rcases hd with hd | hd
      · rw [drop_eq_getD_cons _ _ (by omega), drop_eq_getD_cons _ _ (by omega : (a :: l).length - k + 1 < (a :: l).length)]
        rw [show (a :: l).length - k + 1 = m by omega]
        exact fullRune_of_b1_noncont _ _ _ hcont
      · rw [drop_eq_getD_cons _ _ (by omega),
          drop_eq_getD_cons _ _ (by omega : (a :: l).length - k + 1 < (a :: l).length),
          drop_eq_getD_cons _ _ (by omega : (a :: l).length - k + 1 + 1 < (a :: l).length)]
        rw [show (a :: l).length - k + 1 + 1 = m by omega]
        exact fullRune_of_b2_noncont _ _ _ _ hcont
    · rw [heq]
      exact hfull
    · have hj := hwin _ hgt (by omega)
      rw [drop_eq_getD_cons _ _ (by omega)]
      exact fullRune_of_size_eq_zero _ _ (utf8Size_eq_zero_of_cont _ hj)
/-! ## TinyLog write invariant -/

theorem TinyLog_Write_open (l : TinyLog) (p : List Nat) (h : l.closed = false) :
    ((l.Write p).1).closed = false := by
  rw [TinyLog.Write, if_neg (by simp [h])]
  cases hscan : scanCut (l.remainder ++ p) with
  | cutAt i => by_cases hi : i = 0 <;> simp [hscan, hi, h]
  | noStart => simp [hscan, h]
  | fullAt m => simp [hscan, h]

theorem TinyLog_Write_invariant (l : TinyLog) (p : List Nat) (h : l.closed = false)
    (z : List Nat) :
    ((l.Write p).1).fileBytes ++ ToUTF8 (((l.Write p).1).remainder ++ z) =
      l.fileBytes ++ ToUTF8 ((l.remainder ++ p) ++ z) := by
  rw [TinyLog.Write, if_neg (by simp [h])]
  cases hscan : scanCut (l.remainder ++ p) with
  | noStart =>
    simp only [hscan, List.nil_append]
    rw [ToUTF8_append _ z (Or.inl (tailFull_of_noStart _ hscan)), List.append_assoc]
  | fullAt m =>
    simp only [hscan, List.nil_append]
    rw [ToUTF8_append _ z (Or.inl (tailFull_of_fullAt _ m hscan)), List.append_assoc]
  | cutAt i =>
    by_cases hi : i = 0
    · simp [hscan, hi, List.append_assoc]
    · simp only [hscan, if_neg hi]
      obtain ⟨hrs, _, hlt⟩ := scanCut_cutAt _ i hscan
      have hnc : headNotCont ((l.remainder ++ p).drop i ++ z) = true := by
        rw [drop_eq_getD_cons _ _ hlt]
        simp only [List.cons_append, headNotCont]
        simpa using cont_false_of_runeStart _ hrs
      rw [show (l.remainder ++ p) ++ z =
            (l.remainder ++ p).take i ++ ((l.remainder ++ p).drop i ++ z) by
          rw [← List.append_assoc, List.take_append_drop]]
      rw [ToUTF8_append _ _ (Or.inr hnc), List.append_assoc]

theorem TinyLog_writeAll_invariant (ws : List (List Nat)) :
    ∀ l : TinyLog, l.closed = false →
      (l.writeAll ws).closed = false ∧
      ∀ z, (l.writeAll ws).fileBytes ++ ToUTF8 ((l.writeAll ws).remainder ++ z) =
        l.fileBytes ++ ToUTF8 (l.remainder ++ (ws.flatten ++ z)) := by
  induction ws with
  | nil =>
    intro l h
    exact ⟨h, fun z => by simp [TinyLog.writeAll]⟩
  | cons w ws ih =>
    intro l h
    have hop := TinyLog_Write_open l w h
    obtain ⟨hcl, hinv⟩ := ih (l.Write w).1 hop
    have hall : l.writeAll (w :: ws) = ((l.Write w).1).writeAll ws := by
      simp [TinyLog.writeAll]
    refine ⟨by rw [hall]; exact hcl, ?_⟩
    intro z
    rw [hall]
    rw [hinv z, TinyLog_Write_invariant l w h (ws.flatten ++ z)]
    simp [List.append_assoc]

theorem TinyLog_fileBytes_final (ws : List (List Nat)) :
    ((TinyLog.new.writeAll ws).Close).fileBytes = ToUTF8 ws.flatten := by
  obtain ⟨hcl, hinv⟩ := TinyLog_writeAll_invariant ws TinyLog.new rfl
  have h0 := hinv []
  rw [TinyLog.Close, if_neg (by simp [hcl])]
  simpa [TinyLog.new] using h0
/-! ## Base64 round-trip -/

theorem b64_char_spec : ∀ v : Fin 64, b64Val (b64Chr v.val) = some v.val ∧ b64Chr v.val ≠ '=' := by
  decide

theorem b64Val_chr (v : Nat) (h : v < 64) : b64Val (b64Chr v) = some v :=
  (b64_char_spec ⟨v, h⟩).1

theorem b64Chr_ne_pad (v : Nat) (h : v < 64) : b64Chr v ≠ '=' :=
  (b64_char_spec ⟨v, h⟩).2

theorem base64_roundtrip_aux : ∀ (n : Nat) (bytes : List Nat), bytes.length ≤ n →
    (∀ b ∈ bytes, b < 256) →
    base64DecodeChars (base64Encode bytes) = some bytes := by
  intro n
  induction n with
  | zero =>
    intro bytes hlen _
    have hb : bytes = [] := List.eq_nil_of_length_eq_zero (Nat.le_zero.mp hlen)
    rw [hb]
    rfl
  | succ n ih =>
    intro bytes hlen hb
    rcases bytes with _ | ⟨a, _ | ⟨b, _ | ⟨c, rest⟩⟩⟩
    · rfl
    · have ha : a < 256 := hb a (by simp)
      rw [base64Encode, base64DecodeChars]
      simp only [b64Val_chr (a / 4) (by omega), b64Val_chr (a % 4 * 16) (by omega)]
      rw [if_pos (by simp : (True ∧ True ∧ True : Prop))]
      have harith : a / 4 * 4 + a % 4 * 16 / 16 = a := by omega
      rw [harith]
    · have ha : a < 256 := hb a (by simp)
      have hbb : b < 256 := hb b (by simp)
      rw [base64Encode, base64DecodeChars]
      simp only [b64Val_chr (a / 4) (by omega), b64Val_chr (a % 4 * 16 + b / 16) (by omega)]
      rw [if_neg (fun hcon => b64Chr_ne_pad (b % 16 * 4) (by omega) hcon.1)]
      rw [if_pos (by simp : (True ∧ True : Prop))]
      simp only [b64Val_chr (b % 16 * 4) (by omega)]
      have h1 : a / 4 * 4 + (a % 4 * 16 + b / 16) / 16 = a := by omega
      have h2 : (a % 4 * 16 + b / 16) % 16 * 16 + b % 16 * 4 / 4 = b := by omega
      rw [h1, h2]
    · have ha : a < 256 := hb a (by simp)
      have hbb : b < 256 := hb b (by simp)
      have hc : c < 256 := hb c (by simp)
      have hrest : ∀ x ∈ rest, x < 256 := fun x hx => hb x (by simp [hx])
      rw [base64Encode]
      rw [show ([b64Chr (a / 4), b64Chr (a % 4 * 16 + b / 16),
          b64Chr (b % 16 * 4 + c / 64), b64Chr (c % 64)] ++ base64Encode rest) =
        (b64Chr (a / 4) :: b64Chr (a % 4 * 16 + b / 16) ::
          b64Chr (b % 16 * 4 + c / 64) :: b64Chr (c % 64) :: base64Encode rest) from rfl]
      rw [base64DecodeChars]
      simp only [b64Val_chr (a / 4) (by omega), b64Val_chr (a % 4 * 16 + b / 16) (by omega)]
      rw [if_neg (fun hcon => b64Chr_ne_pad (b % 16 * 4 + c / 64) (by omega) hcon.1)]
      rw [if_neg (fun hcon => b64Chr_ne_pad (c % 64) (by omega) hcon.1)]
      simp only [b64Val_chr (b % 16 * 4 + c / 64) (by omega), b64Val_chr (c % 64) (by omega),
        ih rest (by simp at hlen; omega) hrest]
      have h1 : a / 4 * 4 + (a % 4 * 16 + b / 16) / 16 = a := by omega
      have h2 : (a % 4 * 16 + b / 16) % 16 * 16 + (b % 16 * 4 + c / 64) / 4 = b := by omega
      have h3 : (b % 16 * 4 + c / 64) % 4 * 64 + c % 64 = c := by omega
      rw [h1, h2, h3]
      rfl

theorem base64_roundtrip (bytes : List Nat) (h : ∀ b ∈ bytes, b < 256) :
    base64DecodeChars (base64Encode bytes) = some bytes :=
  base64_roundtrip_aux bytes.length bytes (le_refl _) h
/-! ## Byte bounds for the transcoded stream -/

theorem utf8Size_eq_one_lt (b0 : Nat) (h : utf8Size b0 = 1) : b0 < 0x80 := by
  unfold utf8Size at h
  split_ifs at h <;> omega

theorem utf8Size_eq_two_lt (b0 : Nat) (h : utf8Size b0 = 2) : b0 < 0xE0 := by
  unfold utf8Size at h
  split_ifs at h <;> omega

theorem utf8Size_eq_three_lt (b0 : Nat) (h : utf8Size b0 = 3) : b0 < 0xF0 := by
  unfold utf8Size at h
  split_ifs at h <;> omega

theorem utf8Size_eq_four_lt (b0 : Nat) (h : utf8Size b0 = 4) : b0 < 0xF5 := by
  unfold utf8Size at h
  split_ifs at h <;> omega

theorem decodeRune_rune_lt (p : List Nat) : (decodeRune p).1 < 0x200000 := by
  rcases p with _ | ⟨b0, rest⟩
  · simp [decodeRune, RuneErrorRune]
  · rcases utf8Size_cases b0 with hsz | hsz | hsz | hsz | hsz
    · simp [decodeRune, hsz, RuneErrorRune]
    · have hb0 := utf8Size_eq_one_lt b0 hsz
      simp only [decodeRune, hsz]
      norm_num
      omega
    · have hb0 := utf8Size_eq_two_lt b0 hsz
      have hhi := utf8Hi_le b0
      rcases rest with _ | ⟨b1, rest2⟩
      · simp [decodeRune, hsz, RuneErrorRune]
      · by_cases hr : b1 < utf8Lo b0 ∨ utf8Hi b0 < b1
        · simp [decodeRune, hsz, hr, RuneErrorRune]
        · simp only [decodeRune, hsz]
          norm_num
          rw [if_neg hr]
          norm_num
          omega
    · have hb0 := utf8Size_eq_three_lt b0 hsz
      have hhi := utf8Hi_le b0
      rcases rest with _ | ⟨b1, _ | ⟨b2, rest3⟩⟩
      · simp [decodeRune, hsz, RuneErrorRune]
      · by_cases hr : b1 < utf8Lo b0 ∨ utf8Hi b0 < b1 <;>
          simp [decodeRune, hsz, hr, RuneErrorRune]
      · by_cases hr : b1 < utf8Lo b0 ∨ utf8Hi b0 < b1
        · simp [decodeRune, hsz, hr, RuneErrorRune]
        · by_cases hc2 : isCont b2
          · have hb2 : b2 ≤ 0xBF := by
              simp only [isCont, decide_eq_true_eq] at hc2
              omega
            simp only [decodeRune, hsz]
            norm_num
            rw [if_neg hr]
            simp [hc2]
            omega
          · simp [decodeRune, hsz, hr, hc2, RuneErrorRune]
    · have hb0 := utf8Size_eq_four_lt b0 hsz
      have hhi := utf8Hi_le b0
      rcases rest with _ | ⟨b1, _ | ⟨b2, _ | ⟨b3, rest4⟩⟩⟩
      · simp [decodeRune, hsz, RuneErrorRune]
      · by_cases hr : b1 < utf8Lo b0 ∨ utf8Hi b0 < b1 <;>
          simp [decodeRune, hsz, hr, RuneErrorRune]
      · by_cases hr : b1 < utf8Lo b0 ∨ utf8Hi b0 < b1
        · simp [decodeRune, hsz, hr, RuneErrorRune]
        · by_cases hc2 : isCont b2 <;> simp [decodeRune, hsz, hr, hc2, RuneErrorRune]
      · by_cases hr : b1 < utf8Lo b0 ∨ utf8Hi b0 < b1
        · simp [decodeRune, hsz, hr, RuneErrorRune]
        · by_cases hc2 : isCont b2
          · by_cases hc3 : isCont b3
            · have hb2 : b2 ≤ 0xBF := by
                simp only [isCont, decide_eq_true_eq] at hc2
                omega
              have hb3 : b3 ≤ 0xBF := by
                simp only [isCont, decide_eq_true_eq] at hc3
                omega
              simp only [decodeRune, hsz]
              norm_num
              rw [if_neg hr]
              simp [hc2, hc3]
              omega
            · simp [decodeRune, hsz, hr, hc2, hc3, RuneErrorRune]
          · simp [decodeRune, hsz, hr, hc2, RuneErrorRune]

theorem decodeList_runes_lt_aux : ∀ (n : Nat) (p : List Nat), p.length ≤ n →
    ∀ r ∈ decodeList p, r < 0x200000 := by
  intro n
  induction n with
  | zero =>
    intro p hlen r hr
    have hp : p = [] := List.eq_nil_of_length_eq_zero (Nat.le_zero.mp hlen)
    rw [hp, decodeList_nil] at hr
    cases hr
  | succ n ih =>
    intro p hlen r hr
    rcases p with _ | ⟨b, rest⟩
    · rw [decodeList_nil] at hr
      cases hr
    · rw [decodeList_cons] at hr
      rcases List.mem_cons.mp hr with hr | hr
      · rw [hr]
        exact decodeRune_rune_lt (b :: rest)
      · refine ih _ ?_ r hr
        simp only [List.length_drop, List.length_cons]
        simp only [List.length_cons] at hlen
        omega

theorem encodeRune_bytes_lt (r : Nat) (h : r < 0x200000) :
    ∀ b ∈ encodeRune r, b < 256 := by
  intro b hb
  unfold encodeRune at hb
  split_ifs at hb with h1 h2 h3 <;>
    simp only [List.mem_cons, List.not_mem_nil, or_false] at hb
  · omega
  · rcases hb with hb | hb <;> omega
  · rcases hb with hb | hb | hb <;> omega
  · rcases hb with hb | hb | hb | hb <;> omega

theorem ToUTF8_bytes_lt (p : List Nat) : ∀ b ∈ ToUTF8 p, b < 256 := by
  intro b hb
  unfold ToUTF8 at hb
  simp only [List.mem_flatten, List.mem_map] at hb
  obtain ⟨l, ⟨r, hr, hl⟩, hbl⟩ := hb
  rw [← hl] at hbl
  exact encodeRune_bytes_lt r (decodeList_runes_lt_aux p.length p (le_refl _) r hr) b hbl
/-! ## Zlib stored-block round-trip -/

theorem chunkBytes_nil : chunkBytes [] = [] := by
  rw [chunkBytes]

theorem chunkBytes_cons (x : Nat) (xs : List Nat) :
    chunkBytes (x :: xs) = (x :: xs).take 65535 :: chunkBytes ((x :: xs).drop 65535) := by
  rw [chunkBytes]

theorem chunkBytes_spec : ∀ (n : Nat) (l : List Nat), l.length ≤ n →
    (chunkBytes l).flatten = l ∧
    (∀ c ∈ chunkBytes l, c.length ≤ 65535) ∧
    (∀ c ∈ chunkBytes l, ∀ x ∈ c, x ∈ l) := by
  intro n
  induction n with
  | zero =>
    intro l hlen
    have hl : l = [] := List.eq_nil_of_length_eq_zero (Nat.le_zero.mp hlen)
    rw [hl, chunkBytes_nil]
    exact ⟨rfl, by simp, by simp⟩
  | succ n ih =>
    intro l hlen
    rcases l with _ | ⟨x, xs⟩
    · rw [chunkBytes_nil]
      exact ⟨rfl, by simp, by simp⟩
    · rw [chunkBytes_cons]
      have hdrop : ((x :: xs).drop 65535).length ≤ n := by
        simp only [List.length_drop, List.length_cons]
        simp only [List.length_cons] at hlen
        omega
      obtain ⟨hflat, hle, hmem⟩ := ih ((x :: xs).drop 65535) hdrop
      refine ⟨?_, ?_, ?_⟩
      · simp only [List.flatten_cons, hflat, List.take_append_drop]
      · intro c hc
        rcases List.mem_cons.mp hc with hc | hc
        · rw [hc]
          simp [List.length_take]
        · exact hle c hc
      · intro c hc y hy
        rcases List.mem_cons.mp hc with hc | hc
        · rw [hc] at hy
          exact List.mem_of_mem_take hy
        · exact List.mem_of_mem_drop (hmem c hc y hy)

theorem storedBlocks_length_ge (cs : List (List Nat)) :
    cs.length ≤ (storedBlocks cs).length := by
  induction cs with
  | nil => simp [storedBlocks, storedBlock]
  | cons c cs ih =>
    rcases cs with _ | ⟨c2, rest⟩
    · simp [storedBlocks, storedBlock]
    · rw [storedBlocks]
      simp only [List.length_append, List.length_cons] at ih ⊢
      simp only [storedBlock, List.length_cons]
      omega

theorem parseStoredBlocks_spec : ∀ (cs : List (List Nat)) (tail acc : List Nat) (fuel : Nat),
    (∀ c ∈ cs, c.length ≤ 65535) → cs.length < fuel →
    parseStoredBlocks fuel (storedBlocks cs ++ tail) acc = some (acc ++ cs.flatten, tail) := by
  intro cs
  induction cs with
  | nil =>
    intro tail acc fuel _ hfuel
    rcases fuel with _ | fuel
    · omega
    · show parseStoredBlocks (fuel + 1) (storedBlock true [] ++ tail) acc = _
      rw [show storedBlock true [] ++ tail = 1 :: 0 :: 0 :: 255 :: 255 :: tail from rfl]
      rw [parseStoredBlocks]
      norm_num
  | cons c cs ih =>
    intro tail acc fuel hle hfuel
    rcases fuel with _ | fuel
    · omega
    · rcases cs with _ | ⟨c2, rest⟩
      · have hc : c.length ≤ 65535 := hle c (by simp)
        show parseStoredBlocks (fuel + 1) (storedBlock true c ++ tail) acc = _
        rw [show storedBlock true c ++ tail =
          1 :: c.length % 256 :: c.length / 256 ::
            (65535 - c.length) % 256 :: (65535 - c.length) / 256 :: (c ++ tail) from by
          simp [storedBlock]]
        rw [parseStoredBlocks]
        have h1 : c.length % 256 + c.length / 256 * 256 = c.length := by omega
        rw [h1]
        have h2 : ¬((65535 - c.length) % 256 + (65535 - c.length) / 256 * 256 ≠ 65535 - c.length) := by omega
        rw [if_neg (by norm_num), if_neg h2]
        have h3 : ¬((c ++ tail).length < c.length) := by
          simp only [List.length_append]
          omega
        rw [if_neg h3]
        have h4 : (c ++ tail).take c.length = c := List.take_left c tail
        have h5 : (c ++ tail).drop c.length = tail := List.drop_left c tail
        rw [if_pos (by norm_num : (1 : Nat) % 2 = 1), h4, h5]
        simp
      · have hc : c.length ≤ 65535 := hle c (by simp)
        rw [show storedBlocks (c :: c2 :: rest) ++ tail =
          0 :: c.length % 256 :: c.length / 256 ::
            (65535 - c.length) % 256 :: (65535 - c.length) / 256 ::
            (c ++ (storedBlocks (c2 :: rest) ++ tail)) from by
          simp [storedBlocks, storedBlock, List.append_assoc]]
        rw [parseStoredBlocks]
        have h1 : c.length % 256 + c.length / 256 * 256 = c.length := by omega
        rw [h1]
        have h2 : ¬((65535 - c.length) % 256 + (65535 - c.length) / 256 * 256 ≠ 65535 - c.length) := by omega
        rw [if_neg (by norm_num), if_neg h2]
        have h3 : ¬((c ++ (storedBlocks (c2 :: rest) ++ tail)).length < c.length) := by
          simp only [List.length_append]
          omega
        rw [if_neg h3]
        have h4 : (c ++ (storedBlocks (c2 :: rest) ++ tail)).take c.length = c :=
          List.take_left c _
        have h5 : (c ++ (storedBlocks (c2 :: rest) ++ tail)).drop c.length =
            storedBlocks (c2 :: rest) ++ tail :=
          List.drop_left c _
        rw [if_neg (by norm_num : ¬((0 : Nat) % 2 = 1)), h4, h5]
        rw [ih tail (acc ++ c) fuel (fun d hd => hle d (by simp [hd])) (by simp at hfuel ⊢; omega)]
        simp

theorem adler32_pair_lt (l : List Nat) :
    ∀ p : Nat × Nat, p.1 < 65521 → p.2 < 65521 →
      (l.foldl (fun (ab : Nat × Nat) b => ((ab.1 + b) % 65521, (ab.2 + ab.1 + b) % 65521)) p).1 < 65521 ∧
      (l.foldl (fun (ab : Nat × Nat) b => ((ab.1 + b) % 65521, (ab.2 + ab.1 + b) % 65521)) p).2 < 65521 := by
  induction l with
  | nil =>
    intro p h1 h2
    exact ⟨h1, h2⟩
  | cons b l ih =>
    intro p h1 h2
    exact ih _ (Nat.mod_lt _ (by omega)) (Nat.mod_lt _ (by omega))

theorem adler32_lt (bytes : List Nat) : adler32 bytes < 4294967296 := by
  obtain ⟨h1, h2⟩ := adler32_pair_lt bytes (1, 0) (by omega) (by omega)
  have heq : adler32 bytes =
      (bytes.foldl (fun (ab : Nat × Nat) b => ((ab.1 + b) % 65521, (ab.2 + ab.1 + b) % 65521)) (1, 0)).2 * 65536 +
      (bytes.foldl (fun (ab : Nat × Nat) b => ((ab.1 + b) % 65521, (ab.2 + ab.1 + b) % 65521)) (1, 0)).1 := rfl
  rw [heq]
  omega

theorem zlib_roundtrip (bytes : List Nat) :
    zlibDecompress (zlibCompress bytes) = some bytes := by
  obtain ⟨hflat, hle, _⟩ := chunkBytes_spec bytes.length bytes (le_refl _)
  have hfuel : (chunkBytes bytes).length <
      (storedBlocks (chunkBytes bytes) ++ beBytes4 (adler32 bytes)).length + 1 := by
    have := storedBlocks_length_ge (chunkBytes bytes)
    simp only [List.length_append]
    omega
  unfold zlibCompress zlibDecompress
  rw [show ([0x78, 0x01] ++ storedBlocks (chunkBytes bytes) ++ beBytes4 (adler32 bytes)) =
    0x78 :: 0x01 :: (storedBlocks (chunkBytes bytes) ++ beBytes4 (adler32 bytes)) from rfl]
  show (if (120 : Nat) % 16 ≠ 8 ∨ (120 * 256 + 1) % 31 ≠ 0 then none
    else
      match parseStoredBlocks
          ((storedBlocks (chunkBytes bytes) ++ beBytes4 (adler32 bytes)).length + 1)
          (storedBlocks (chunkBytes bytes) ++ beBytes4 (adler32 bytes)) [] with
      | some (data, [a1, a2, a3, a4]) =>
        if a1 * 16777216 + a2 * 65536 + a3 * 256 + a4 = adler32 data then some data else none
      | _ => none) = some bytes
  rw [if_neg (by norm_num)]
  rw [parseStoredBlocks_spec (chunkBytes bytes) (beBytes4 (adler32 bytes)) [] _ hle hfuel]
  rw [hflat]
  have hadler := adler32_lt bytes
  rw [show beBytes4 (adler32 bytes) =
    [adler32 bytes / 0x1000000 % 256, adler32 bytes / 0x10000 % 256,
     adler32 bytes / 0x100 % 256, adler32 bytes % 256] from rfl]
  simp only [List.nil_append]
  rw [if_pos (by omega)]
theorem storedBlock_bytes_lt (final : Bool) (data : List Nat)
    (hlen : data.length ≤ 65535) (hdata : ∀ x ∈ data, x < 256) :
    ∀ b ∈ storedBlock final data, b < 256 := by
  intro b hb
  simp only [storedBlock, List.mem_cons] at hb
  rcases hb with hb | hb | hb | hb | hb | hb
  · cases final <;> simp at hb <;> omega
  · omega
  · omega
  · omega
  · omega
  · exact hdata b hb

theorem storedBlocks_bytes_lt (cs : List (List Nat))
    (hlen : ∀ c ∈ cs, c.length ≤ 65535) (hdata : ∀ c ∈ cs, ∀ x ∈ c, x < 256) :
    ∀ b ∈ storedBlocks cs, b < 256 := by
  induction cs with
  | nil =>
    intro b hb
    exact storedBlock_bytes_lt true [] (by simp) (by simp) b hb
  | cons c cs ih =>
    rcases cs with _ | ⟨c2, rest⟩
    · intro b hb
      exact storedBlock_bytes_lt true c (hlen c (by simp)) (hdata c (by simp)) b hb
    · intro b hb
      rw [storedBlocks] at hb
      rcases List.mem_append.mp hb with hb | hb
      · exact storedBlock_bytes_lt false c (hlen c (by simp)) (hdata c (by simp)) b hb
      · exact ih (fun d hd => hlen d (by simp [hd])) (fun d hd => hdata d (by simp [hd])) b hb

theorem zlibCompress_bytes_lt (bytes : List Nat) (h : ∀ x ∈ bytes, x < 256) :
    ∀ b ∈ zlibCompress bytes, b < 256 := by
  obtain ⟨_, hle, hmem⟩ := chunkBytes_spec bytes.length bytes (le_refl _)
  intro b hb
  unfold zlibCompress at hb
  rcases List.mem_append.mp hb with hb | hb
  · rcases List.mem_append.mp hb with hb | hb
    · simp only [List.mem_cons, List.not_mem_nil, or_false] at hb
      rcases hb with hb | hb <;> omega
    · exact storedBlocks_bytes_lt (chunkBytes bytes) hle
        (fun c hc x hx => h x (hmem c hc x hx)) b hb
  · simp only [beBytes4, List.mem_cons, List.not_mem_nil, or_false] at hb
    rcases hb with hb | hb | hb | hb <;> omega

theorem TinyLog_Close_closed (l : TinyLog) : (l.Close).closed = true := by
  rw [TinyLog.Close]
  split_ifs with h
  · exact h
  · rfl

theorem TinyLog_Close_of_closed (l : TinyLog) (h : l.closed = true) : l.Close = l := by
  rw [TinyLog.Close, if_pos h]

theorem TinyLog_Close_Close (l : TinyLog) : (l.Close).Close = l.Close :=
  TinyLog_Close_of_closed _ (TinyLog_Close_closed l)

theorem tinyLog_compress_roundtrip (ws : List (List Nat)) :
    (base64Decode (((TinyLog.new.writeAll ws).Close).CompressAndCleanup)).bind
      zlibDecompress = some (ToUTF8 ws.flatten) := by
  rw [TinyLog.CompressAndCleanup]
  rw [show ((TinyLog.new.writeAll ws).Close).Close = (TinyLog.new.writeAll ws).Close from
    TinyLog_Close_Close _]
  rw [TinyLog_fileBytes_final ws]
  rw [show base64Decode (String.mk (base64Encode (zlibCompress (ToUTF8 ws.flatten)))) =
    base64DecodeChars (base64Encode (zlibCompress (ToUTF8 ws.flatten))) from rfl]
  rw [base64_roundtrip _ (zlibCompress_bytes_lt _ (ToUTF8_bytes_lt _))]
  rw [Option.some_bind]
  exact zlib_roundtrip _
/-! ## Claim C4 -/

/-- C4: for every sequence of writes to a TinyLog followed by close and
compress-and-cleanup, base64-decoding and then zlib-decompressing the
returned string yields exactly the lenient-UTF-8 transcoding of the
concatenation of all bytes written; in particular the six bytes of 你好
written as the chunks E4 BD and A0 E5 A5 BD survive the split intact. -/
theorem C4_roundtrip (ws : List (List Nat)) :
    (base64Decode (((TinyLog.new.writeAll ws).Close).CompressAndCleanup)).bind
        zlibDecompress = some (ToUTF8 ws.flatten) ∧
    (base64Decode (((TinyLog.new.writeAll [[0xE4, 0xBD], [0xA0, 0xE5, 0xA5, 0xBD]]).Close).CompressAndCleanup)).bind
        zlibDecompress = some [0xE4, 0xBD, 0xA0, 0xE5, 0xA5, 0xBD] := by
  refine ⟨tinyLog_compress_roundtrip ws, ?_⟩
  rw [tinyLog_compress_roundtrip [[0xE4, 0xBD], [0xA0, 0xE5, 0xA5, 0xBD]]]
  have h1 : ToUTF8 [228, 189, 160, 229, 165, 189] = [228, 189, 160, 229, 165, 189] := by
    rw [ToUTF8]
    rw [decodeList_cons]
    rw [show decodeRune [228, 189, 160, 229, 165, 189] = (20320, 3) from rfl]
    rw [show List.drop (max 3 1) [228, 189, 160, 229, 165, 189] = [229, 165, 189] from rfl]
    rw [decodeList_cons]
    rw [show decodeRune [229, 165, 189] = (22909, 3) from rfl]
    rw [show List.drop (max 3 1) [229, 165, 189] = ([] : List Nat) from rfl]
    rw [decodeList_nil]
    rfl
  rw [show [[(228 : Nat), 189], [160, 229, 165, 189]].flatten = [228, 189, 160, 229, 165, 189] from rfl]
  rw [h1]
end Baihu
